import Mathlib

/-!
# Verification of the flow-cytometry data-extraction pipeline

This file gives a shallow embedding of the data pipeline implemented in
`flowjo_data_extraction.py` (class `FlowDataProcessor`) and proves or refutes
the specification claims about it.

Modelling conventions:
* Labels read from the spreadsheets are modelled as canonical strings
  (the spec's §9 normalisation note); `astype(str)` applied to a missing
  (`NaN`) pandas value yields the literal string `"nan"`, which the embedding
  reproduces via `groupToStr`.
* Numeric metric readings are exact rationals (`ℚ`); a missing reading
  (pandas `NaN`) is `Option.none`.  Dispersion statistics, which involve a
  square root, live in `ℝ`.
* Python's `sorted` on strings is code-point lexicographic; it is embedded as
  insertion sort by the boolean comparison `strLe`.
* Spreadsheet grids are lists of rows of optional cells (`none` = blank/NaN),
  mirroring the `DataFrame` handed to `process_plate_map`.
-/

namespace FlowSpec

/-! ## Lexicographic string order (Python `sorted` on strings) -/

/-- Code-point lexicographic `≤` on char lists, as Python compares strings. -/
def lexLe : List Char → List Char → Bool
  | [], _ => true
  | _ :: _, [] => false
  | a :: as, b :: bs =>
    if a.toNat < b.toNat then true
    else if b.toNat < a.toNat then false
    else lexLe as bs

/-- Code-point lexicographic `≤` on strings. -/
def strLe (s t : String) : Bool := lexLe s.data t.data

theorem lexLe_total : ∀ as bs, lexLe as bs = true ∨ lexLe bs as = true
  | [], _ => Or.inl rfl
  | _ :: _, [] => Or.inr rfl
  | a :: as, b :: bs => by
    by_cases hab : a.toNat < b.toNat
    · exact Or.inl (by simp [lexLe, hab])
    · by_cases hba : b.toNat < a.toNat
      · exact Or.inr (by simp [lexLe, hba, hab])
      · rcases lexLe_total as bs with h | h
        · exact Or.inl (by simp [lexLe, hab, hba, h])
        · exact Or.inr (by simp [lexLe, hab, hba, h])

theorem lexLe_cons_iff {a b : Char} {as bs : List Char} :
    lexLe (a :: as) (b :: bs) = true ↔
      a.toNat < b.toNat ∨ (a.toNat = b.toNat ∧ lexLe as bs = true) := by
  by_cases hab : a.toNat < b.toNat
  · simp [lexLe, hab]
  · by_cases hba : b.toNat < a.toNat
    · simp [lexLe, hab, hba]
      omega
    · simp [lexLe, hab, hba]
      omega

theorem lexLe_trans : ∀ as bs cs, lexLe as bs = true → lexLe bs cs = true →
    lexLe as cs = true
  | [], _, _, _, _ => rfl
  | a :: as, [], cs, h, _ => by simp [lexLe] at h
  | a :: as, b :: bs, [], _, h => by simp [lexLe] at h
  | a :: as, b :: bs, c :: cs, h1, h2 => by
    rw [lexLe_cons_iff] at h1 h2 ⊢
    rcases h1 with h1 | ⟨h1e, h1r⟩
    · rcases h2 with h2 | ⟨h2e, _⟩
      · exact Or.inl (by omega)
      · exact Or.inl (by omega)
    · rcases h2 with h2 | ⟨h2e, h2r⟩
      · exact Or.inl (by omega)
      · exact Or.inr ⟨by omega, lexLe_trans as bs cs h1r h2r⟩

theorem char_toNat_inj {a b : Char} (h : a.toNat = b.toNat) : a = b :=
  Char.ext (UInt32.ext h)

theorem lexLe_antisymm : ∀ as bs, lexLe as bs = true → lexLe bs as = true →
    as = bs
  | [], [], _, _ => rfl
  | [], _ :: _, _, h => by simp [lexLe] at h
  | _ :: _, [], h, _ => by simp [lexLe] at h
  | a :: as, b :: bs, h1, h2 => by
    rw [lexLe_cons_iff] at h1 h2
    rcases h1 with h1 | ⟨h1e, h1r⟩
    · rcases h2 with h2 | ⟨h2e, _⟩ <;> omega
    · rcases h2 with h2 | ⟨h2e, h2r⟩
      · omega
      · have hce : a = b := char_toNat_inj h1e
        subst hce
        rw [lexLe_antisymm as bs h1r h2r]

/-- The sort relation used for all label sorting. -/
def strLeR (a b : String) : Prop := strLe a b = true

instance : DecidableRel strLeR := fun a b => inferInstanceAs (Decidable (_ = true))

instance : IsTotal String strLeR := ⟨fun a b => lexLe_total a.data b.data⟩

instance : IsTrans String strLeR :=
  ⟨fun a b c h1 h2 => lexLe_trans a.data b.data c.data h1 h2⟩

instance : IsAntisymm String strLeR := by
  constructor
  intro a b h1 h2
  have h := lexLe_antisymm a.data b.data h1 h2
  exact congrArg String.mk h

/-- Python `sorted` on a list of strings. -/
def sortLex (l : List String) : List String := l.insertionSort strLeR

theorem sortLex_sorted (l : List String) : (sortLex l).Sorted strLeR :=
  List.sorted_insertionSort strLeR l

theorem sortLex_perm (l : List String) : (sortLex l).Perm l :=
  List.perm_insertionSort strLeR l

theorem mem_sortLex {x : String} {l : List String} : x ∈ sortLex l ↔ x ∈ l :=
  (sortLex_perm l).mem_iff

theorem sortLex_nodup {l : List String} (h : l.Nodup) : (sortLex l).Nodup :=
  (sortLex_perm l).nodup_iff.mpr h

/-! ## Rounding to two decimals

`pandas.Series.round(2)` rounds a reading to two decimal places; the embedding
uses Mathlib's `round` on exact rationals for the half-way tie behaviour. -/

/-- Round a rational to two decimal places (the pipeline's `.round(2)`). -/
def round2 (q : ℚ) : ℚ := (round (100 * q) : ℤ) / 100

theorem round2_idem (q : ℚ) : round2 (round2 q) = round2 q := by
  unfold round2
  have h : (100 : ℚ) * ((round (100 * q) : ℤ) / 100) = (round (100 * q) : ℤ) := by
    field_simp
  rw [h, round_intCast]

/-! ## Well extraction from specimen names

`add_flowjo_data` derives the well with
`flow_data['Sample Name'].str.extract(r'_([A-H]\d{2})\.fcs$')`: the name must
end in an underscore, an uppercase letter A–H, two digits and `.fcs`; the
captured group is the three-character well id.  Because the pattern is
anchored at the end and is eight characters long, it matches exactly when the
last eight characters have that shape. -/

/-- Match the eight trailing characters `_X##.fcs` and return the well id. -/
def wellOfSuffix : List Char → Option String
  | [u, l, d1, d2, dot, f, c, s] =>
    if u = '_' ∧ dot = '.' ∧ f = 'f' ∧ c = 'c' ∧ s = 's' ∧
        65 ≤ l.toNat ∧ l.toNat ≤ 72 ∧
        48 ≤ d1.toNat ∧ d1.toNat ≤ 57 ∧ 48 ≤ d2.toNat ∧ d2.toNat ≤ 57 then
      some (String.mk [l, d1, d2])
    else none
  | _ => none

/-- WellId derivation of `add_flowjo_data` (`None` when the name does not
match the anchored pattern). -/
def extractWell (name : String) : Option String :=
  let cs := name.data
  if cs.length < 8 then none else wellOfSuffix (cs.drop (cs.length - 8))

/-! ## Measurement rows and the join

A `MRow` is one measurement row restricted to the chosen metric: `value` is
the reading after `pd.to_numeric(..., errors='coerce')` (so `none` covers both
a missing cell and a non-numeric one).  `process_data` left-merges on `Well`
with the sample map and then the group map, and rounds the metric column to
two decimals. -/

structure MRow where
  name : String
  value : Option ℚ
  deriving DecidableEq, Repr

/-- One joined row: the derived well, the sample and group labels obtained by
the two left merges, and the rounded metric reading. -/
structure JRow where
  well : Option String
  sample : Option String
  group : Option String
  value : Option ℚ
  deriving DecidableEq, Repr

/-- Left-merge lookup: a well maps to the plate-map value when present
(`process_plate_map` never emits duplicate wells, so the first match is the
match). -/
def joinRow (smap gmap : List (String × String)) (r : MRow) : JRow :=
  let w := extractWell r.name
  { well := w
    sample := w.bind fun x => smap.lookup x
    group := w.bind fun x => gmap.lookup x
    value := r.value.map round2 }

def joinAll (smap gmap : List (String × String)) (rows : List MRow) : List JRow :=
  rows.map (joinRow smap gmap)

/-! ## User filter

`process_data` reads the selected options from the filter list; with the
sample radio active and `"All"` not selected it keeps rows whose `Sample` is
`isin` the selection (a `NaN` label is never `isin` anything), symmetrically
for groups. -/

inductive Axis
  | sample
  | group
  deriving DecidableEq, Repr

def axisVal (a : Axis) (r : JRow) : Option String :=
  match a with
  | .sample => r.sample
  | .group => r.group

def applyFilter (a : Axis) (opts : List String) (rows : List JRow) : List JRow :=
  if "All" ∈ opts then rows
  else rows.filter fun r =>
    match axisVal a r with
    | some v => decide (v ∈ opts)
    | none => false

/-- Joined-and-filtered rows for one measurement set — the `merged_data` that
the aggregation branches of `process_data` consume. -/
def keptRows (smap gmap : List (String × String)) (a : Axis) (opts : List String)
    (rows : List MRow) : List JRow :=
  applyFilter a opts (joinAll smap gmap rows)

/-! ## Observed group labels and order resolution

`process_data` computes `merged_data['Group'].astype(str).unique()`:
`astype(str)` maps a missing label to the literal string `"nan"`. -/

/-- Python `str()` of a possibly missing label (`str(nan) = "nan"`). -/
def groupToStr : Option String → String
  | none => "nan"
  | some s => s

/-- The observed group-label strings of the filtered data, first-appearance
order, de-duplicated (`astype(str).unique()`). -/
def observedStr (rows : List JRow) : List String :=
  (rows.map fun r => groupToStr r.group).dedup

/-- Group-order resolution of `process_data` (both aggregation branches use
the same code): with a truthy declared order, keep its entries that are
observed, then append the remaining observed labels sorted; otherwise sort
all observed labels.  `observed` is de-duplicated internally (the code works
on `set(...)`). -/
def resolveOrder (observed : List String) (declared : Option (List String)) :
    List String :=
  let valid := observed.dedup
  match declared with
  | some d =>
    if d.isEmpty then sortLex valid
    else
      let ordered := d.filter fun g => decide (g ∈ valid)
      let remaining := sortLex (valid.filter fun g => decide (g ∉ ordered))
      ordered ++ remaining
  | none => sortLex valid

/-! ## Sample row order

After building a result table, `process_data` applies
`valid_order = [s for s in self.sample_order if s in result.index]` and
`result.reindex(valid_order)` — but only when `self.sample_order` is truthy. -/

def applySampleOrder (idx : List String) (declared : Option (List String)) :
    List String :=
  match declared with
  | some d => if d.isEmpty then idx else d.filter fun s => decide (s ∈ idx)
  | none => idx

/-! ## Replicate numbering (`groupby(['Sample','Group']).cumcount()`)

Rows with a missing sample or group label belong to no group, get no
replicate number, and are dropped by the pivot; rows with both labels are
numbered 0,1,2,… within their (Sample, Group) class, in row order.  The
embedding carries the running per-pair counter explicitly. -/

/-- One replicate-annotated row: both labels present, its replicate number,
and its (possibly missing) reading. -/
structure Ann where
  s : String
  g : String
  rep : Nat
  v : Option ℚ
  deriving DecidableEq, Repr

def annValidAux (cnt : String × String → Nat) : List JRow → List Ann
  | [] => []
  | r :: rs =>
    match r.sample, r.group with
    | some s, some g =>
      ⟨s, g, cnt (s, g), r.value⟩ ::
        annValidAux (fun p => if p = (s, g) then cnt p + 1 else cnt p) rs
    | _, _ => annValidAux cnt rs

/-- The replicate-annotated valid rows of the filtered data (the rows that
`cumcount` numbers and the pivot keeps). -/
def annValid (rows : List JRow) : List Ann := annValidAux (fun _ => 0) rows

/-- Specification-style numbering: a valid row's replicate index is the count
of earlier rows with the same (Sample, Group) pair; `prior` accumulates the
already-seen rows. -/
def specAnnAux (prior : List JRow) : List JRow → List Ann
  | [] => []
  | r :: rs =>
    match r.sample, r.group with
    | some s, some g =>
      ⟨s, g,
        (prior.filter fun r' =>
          decide (r'.sample = some s) && decide (r'.group = some g)).length,
        r.value⟩ :: specAnnAux (prior ++ [r]) rs
    | _, _ => specAnnAux (prior ++ [r]) rs

def specAnn (rows : List JRow) : List Ann := specAnnAux [] rows

theorem annValidAux_eq_specAnnAux (rows : List JRow) :
    ∀ (cnt : String × String → Nat) (prior : List JRow),
      (∀ s g, cnt (s, g) =
        (prior.filter fun r' =>
          decide (r'.sample = some s) && decide (r'.group = some g)).length) →
      annValidAux cnt rows = specAnnAux prior rows := by
  induction rows with
  | nil => intro cnt prior _; rfl
  | cons r rs ih =>
    intro cnt prior hcnt
    match hs : r.sample, hg : r.group with
    | some s, some g =>
      simp only [annValidAux, specAnnAux, hs, hg]
      rw [← hcnt s g]
      congr 1
      · apply ih
        intro s' g'
        rw [List.filter_append, List.length_append]
        by_cases hpair : (s', g') = (s, g)
        · rcases Prod.mk.injEq .. ▸ hpair with ⟨hseq, hgeq⟩
          subst hseq; subst hgeq
          simp [hs, hg, hcnt s' g']
        · have hne : ¬ (r.sample = some s' ∧ r.group = some g') := by
            intro ⟨h1, h2⟩
            rw [hs] at h1
            rw [hg] at h2
            exact hpair (by simp_all)
          have : (List.filter
              (fun r' => decide (r'.sample = some s') && decide (r'.group = some g'))
              [r]).length = 0 := by
            simp only [List.filter, List.length_eq_zero]
            by_cases h1 : r.sample = some s' <;> by_cases h2 : r.group = some g' <;>
              simp_all
          rw [this]
          have hif : (if (s', g') = (s, g) then cnt (s', g') + 1 else cnt (s', g'))
              = cnt (s', g') := by simp [hpair]
          rw [hif, hcnt s' g']
          omega
    | none, _ =>
      simp only [annValidAux, specAnnAux, hs]
      apply ih
      intro s' g'
      rw [List.filter_append, List.length_append]
      have : (List.filter
          (fun r' => decide (r'.sample = some s') && decide (r'.group = some g'))
          [r]).length = 0 := by
        simp only [List.filter, List.length_eq_zero]
        by_cases h1 : r.sample = some s' <;> simp_all
      rw [this, hcnt s' g']
      omega
    | some _, none =>
      simp only [annValidAux, specAnnAux, hs, hg]
      apply ih
      intro s' g'
      rw [List.filter_append, List.length_append]
      have : (List.filter
          (fun r' => decide (r'.sample = some s') && decide (r'.group = some g'))
          [r]).length = 0 := by
        simp only [List.filter, List.length_eq_zero]
        by_cases h1 : r.sample = some s' <;> by_cases h2 : r.group = some g' <;>
          simp_all
      rw [this, hcnt s' g']
      omega

/-- Replicate numbers are exactly the count-of-prior-rows-with-the-same-pair
description of the spec. -/
theorem annValid_eq_specAnn (rows : List JRow) : annValid rows = specAnn rows :=
  annValidAux_eq_specAnnAux rows _ [] (by intro s g; rfl)

/-! ## Individual-replicates aggregation

`pd.pivot_table(..., values=metric, index='Sample', columns=['Group',
'Replicate'], aggfunc='first')` groups the valid rows by the (Sample, Group,
Replicate) triple, dropping missing readings, unstacks (index and columns
sorted ascending), and `process_data` then reindexes the columns to the
resolved group order (keeping only (group, replicate) pairs that occur) and
flattens each column label to the bare group name.  `int(merged_data
['Replicate'].max() + 1)` raises — aborting with an error — when no row has
both labels, since the maximum of an empty/NaN column is NaN. -/

/-- The pivot's populated cells: valid rows whose reading is present. -/
def indCells (rows : List JRow) : List Ann :=
  (annValid rows).filter fun c => c.v.isSome

/-- One more than the largest replicate number of any valid row
(`int(merged_data['Replicate'].max() + 1)`). -/
def maxRep (rows : List JRow) : Nat :=
  ((annValid rows).map fun c => c.rep).foldr max 0 + 1

/-- Does some populated cell carry this (group, replicate) pair? -/
def occursPair (rows : List JRow) (g : String) (rep : Nat) : Bool :=
  (indCells rows).any fun c => c.g == g && c.rep == rep

/-- The pivot row index: samples with a populated cell, sorted ascending. -/
def indRows (rows : List JRow) : List String :=
  sortLex (((indCells rows).map fun c => c.s).dedup)

/-- The reindexed column keys: for each group of the resolved order, its
occurring replicate slots `0 .. max_replicates - 1`, contiguously. -/
def indColKeys (rows : List JRow) (gOrd : Option (List String)) :
    List (String × Nat) :=
  (resolveOrder (observedStr rows) gOrd).flatMap fun g =>
    (List.range (maxRep rows)).filterMap fun rep =>
      if occursPair rows g rep then some (g, rep) else none

/-- The pivot cell for (sample, group, replicate): the first populated cell
with that triple (`aggfunc='first'`). -/
def indCell (rows : List JRow) (s g : String) (rep : Nat) : Option ℚ :=
  ((indCells rows).find? fun c => c.s == s && c.g == g && c.rep == rep).bind
    fun c => c.v

/-- A result table: a single-level `Sample` row index, flattened column
labels, and the cell grid (row-major). -/
structure PTable where
  rows : List String
  cols : List String
  data : List (List (Option ℚ))
  deriving DecidableEq, Repr

/-- The full Individual-mode result of `process_data` for one measurement
set: `none` models the raised `ValueError` when no row joins to both maps;
otherwise the pivot reindexed by the resolved group order, flattened labels,
and the sample order applied. -/
def indResult (rows : List JRow) (gOrd sOrd : Option (List String)) :
    Option PTable :=
  if (annValid rows).isEmpty then none
  else
    let keys := indColKeys rows gOrd
    let rIdx := applySampleOrder (indRows rows) sOrd
    some
      { rows := rIdx
        cols := keys.map fun k => k.1
        data := rIdx.map fun s => keys.map fun k => indCell rows s k.1 k.2 }

/-! ## Mean / SD / SEM aggregation

`merged_data.groupby(['Sample','Group'])[metric]` groups the valid rows by
label pair; `mean()` ignores missing readings, `std()` is the sample standard
deviation (`ddof=1`, `NaN` when fewer than two readings), and
`stats.sem(x, nan_policy='omit')` is the standard error of the mean over the
non-missing readings (`NaN` when fewer than two).  Each statistic is rounded
to two decimals, and the per-group dictionaries are assembled into columns
`<group>_Mean`, `<group>_SD` / `<group>_SEM` in resolved group order. -/

inductive Disp
  | sd
  | sem
  deriving DecidableEq, Repr

/-- All readings (present or missing) of a (sample, group) pair, in row
order. -/
def pairVals (rows : List JRow) (s g : String) : List (Option ℚ) :=
  (rows.filter fun r =>
    decide (r.sample = some s) && decide (r.group = some g)).map fun r => r.value

/-- The non-missing readings of a (sample, group) pair. -/
def obsVals (rows : List JRow) (s g : String) : List ℚ :=
  (pairVals rows s g).filterMap id

/-- Does the groupby produce a group for this pair (at least one row with
both labels)?  Its mean/σ cells exist exactly then; otherwise the assembled
`DataFrame` holds `NaN`. -/
def pairPresent (rows : List JRow) (s g : String) : Prop :=
  pairVals rows s g ≠ []

instance (rows : List JRow) (s g : String) : Decidable (pairPresent rows s g) :=
  inferInstanceAs (Decidable (_ ≠ _))

/-- The emitted `<group>_Mean` cell for a sample: mean of the non-missing
readings, rounded to two decimals; missing when the pair has no non-missing
reading (the mean of an all-NaN group is NaN, and an absent pair has no dict
entry). -/
def emittedMean (rows : List JRow) (s g : String) : Option ℚ :=
  let vs := obsVals rows s g
  if vs.isEmpty then none else some (round2 (vs.sum / (vs.length : ℚ)))

/-- Mean of a list of rationals (0 on the empty list, which is never used). -/
noncomputable def meanR (vs : List ℚ) : ℝ := ((vs.sum : ℚ) : ℝ) / vs.length

/-- Sample variance with `ddof = 1`. -/
noncomputable def sampleVar (vs : List ℚ) : ℝ :=
  ((vs.map fun x => ((x : ℝ) - meanR vs) ^ 2).sum) / (vs.length - 1)

/-- Round a real to two decimal places (`Series.round(2)` applied to the
dispersion column). -/
noncomputable def round2R (x : ℝ) : ℝ := (round (100 * x) : ℤ) / 100

/-- The emitted `<group>_SD` / `<group>_SEM` cell for a sample: sample
standard deviation (resp. standard error of the mean) of the non-missing
readings rounded to two decimals, missing when fewer than two readings exist
(`std(ddof=1)` and `sem` are NaN there). -/
noncomputable def emittedDisp (d : Disp) (rows : List JRow) (s g : String) :
    Option ℝ :=
  let vs := obsVals rows s g
  if 2 ≤ vs.length then
    some (round2R
      (match d with
       | .sd => Real.sqrt (sampleVar vs)
       | .sem => Real.sqrt (sampleVar vs) / Real.sqrt vs.length))
  else none

/-- Modelled from the spec: "the arithmetic mean of the metric (ignoring
missing values) rounded to 2 decimals". -/
def specMean (vs : List ℚ) : Option ℚ :=
  if vs.isEmpty then none else some (round2 (vs.sum / (vs.length : ℚ)))

/-- Modelled from the spec: "the sample standard deviation … rounded to
2 decimals", defined (two or more readings) or blank/NaN. -/
noncomputable def specSD (vs : List ℚ) : Option ℝ :=
  if 2 ≤ vs.length then some (round2R (Real.sqrt (sampleVar vs))) else none

/-- Modelled from the spec: "the standard error of the mean computed over
non-missing values only, also rounded to 2 decimals". -/
noncomputable def specSEM (vs : List ℚ) : Option ℝ :=
  if 2 ≤ vs.length then
    some (round2R (Real.sqrt (sampleVar vs) / Real.sqrt vs.length))
  else none

/-- The resolved group order used by the Mean/SD-SEM branch. -/
def msGroupOrd (rows : List JRow) (gOrd : Option (List String)) : List String :=
  resolveOrder (observedStr rows) gOrd

/-- The dispersion column suffix. -/
def errLabel : Disp → String
  | .sd => "SD"
  | .sem => "SEM"

/-- The emitted column labels of the Mean/SD-SEM result, two per group in
resolved order. -/
def msColLabels (d : Disp) (ord : List String) : List String :=
  ord.flatMap fun g => [g ++ "_Mean", g ++ "_" ++ errLabel d]

/-- The label pairs with at least one row — the groups of the groupby, i.e.
the row keys of the `means` / `errors` series. -/
def msValidPairs (rows : List JRow) : List (String × String) :=
  ((annValid rows).map fun c => (c.s, c.g)).dedup

/-- The row index of the assembled Mean/SD-SEM `DataFrame` (the union of the
per-column dictionary keys; the embedding fixes the sorted order, which every
ordering-sensitive claim overrides via the declared sample order). -/
def msRowsIdx (rows : List JRow) : List String :=
  sortLex (((msValidPairs rows).map fun p => p.1).dedup)

/-- The final row order of a Mean/SD-SEM result after the sample-order
reindex. -/
def msFinalRows (rows : List JRow) (sOrd : Option (List String)) : List String :=
  applySampleOrder (msRowsIdx rows) sOrd

/-! ## Plate-map grids (`process_plate_map`)

A grid is the `DataFrame` read from an Excel sheet: a list of rows of
optional cells (`none` = NaN/blank).  Column 0 holds row labels and is
skipped; data row `r` is plate row `chr(65 + r)`; data column `c ≥ 1` is the
two-digit-formatted column number.  The scan from the bottom finds the last
row with any non-blank cell beyond column 0; all rows up to it are processed.
On a zero-row frame, `df.iloc[0]` raises `IndexError`, which propagates to
the load handler. -/

abbrev Grid : Type := List (List (Option String))

/-- Does a row hold any non-blank cell beyond the row-label column? -/
def rowActive (row : List (Option String)) : Bool :=
  (row.drop 1).any fun c => c.isSome

/-- Index of the last active row (`last_row` in the code; 0 when none is
active). -/
def lastRow (g : Grid) : Nat :=
  match (List.range g.length).reverse.find? (fun i => rowActive (g.getD i [])) with
  | some i => i
  | none => 0

/-- Python's `f"{c:02d}"`: the decimal digits of `c`, zero-padded to width
two (wider numbers print all their digits). -/
def pad2 (c : Nat) : List Char :=
  if c < 100 then [Char.ofNat (48 + c / 10), Char.ofNat (48 + c % 10)]
  else (Nat.toDigits 10 c)

/-- The emitted well id `f"{row_letter}{col_idx:02d}"`. -/
def wellIdStr (r c : Nat) : String := String.mk (Char.ofNat (65 + r) :: pad2 c)

/-- The well→value pairs emitted by `process_plate_map`, in emission order;
`Except.error` models the `IndexError` raised on an empty frame. -/
def processPlateMap (g : Grid) : Except String (List (String × String)) :=
  if g.length = 0 then Except.error "IndexError"
  else Except.ok
    ((List.range (lastRow g + 1)).flatMap fun r =>
      let row := g.getD r []
      (List.range row.length).filterMap fun c =>
        if c = 0 then none
        else (row.getD c none).map fun v => (wellIdStr r c, v))

/-- The declared order read from column 14 (index 13) before the plate map is
parsed: present when the frame has more than 13 columns and the column has a
non-blank entry (`tolist() if not empty else None`). -/
def extractOrder (g : Grid) : Option (List String) :=
  if 13 < (g.map List.length).foldr max 0 then
    let col := g.filterMap fun row =>
      row.getD 13 none
    if col.isEmpty then none else some col
  else none

/-! ## Load handlers and session state

`load_sample_map` / `load_group_map` run inside one `try`: read the file,
store the declared order, then parse and store the plate map (the map and the
well dictionary are assigned together, from the same call); any exception
sets the status label to `LOAD ERROR` instead of `LOADED`.  The read step is
the opaque spreadsheet decoder, modelled as an optional grid (`none` = the
read raised). -/

structure SessionState where
  sample_map : Option (List (String × String))
  sample_order : Option (List String)
  group_map : Option (List (String × String))
  group_order : Option (List String)
  deriving DecidableEq, Repr

inductive LoadStatus
  | loaded
  | loadError
  deriving DecidableEq, Repr

/-- The `load_sample_map` handler: statement order is read, then
`self.sample_order := …`, then `self.sample_map := process_plate_map(df)`. -/
def load_sample_map (st : SessionState) (read : Option Grid) :
    SessionState × LoadStatus :=
  match read with
  | none => (st, .loadError)
  | some g =>
    let st1 := { st with sample_order := extractOrder g }
    match processPlateMap g with
    | .error _ => (st1, .loadError)
    | .ok m => ({ st1 with sample_map := some m }, .loaded)

/-- The `load_group_map` handler, symmetric to `load_sample_map`. -/
def load_group_map (st : SessionState) (read : Option Grid) :
    SessionState × LoadStatus :=
  match read with
  | none => (st, .loadError)
  | some g =>
    let st1 := { st with group_order := extractOrder g }
    match processPlateMap g with
    | .error _ => (st1, .loadError)
    | .ok m => ({ st1 with group_map := some m }, .loaded)

/-! ## Export sinks

`copy_to_clipboard` serialises with `index = (format_choice != "XY_format")`
and `header = include_header`; `save_to_csv` serialises with
`index = isinstance(result.index, pd.MultiIndex)` and the same header flag.
A `PTable` models a single-level `Sample` row index — the only index shape
`process_data` produces — so the `isinstance` test is `False` on every
produced result. -/

inductive Layout
  | standard
  | xy
  deriving DecidableEq, Repr

inductive Sink
  | clipboard
  | file
  deriving DecidableEq, Repr

/-- The `isinstance(result.index, pd.MultiIndex)` test on a produced result
table (always `false`: `PTable` carries a single-level index). -/
def pTableIsMultiIndex (_ : PTable) : Bool := false

/-- Whether the serialised text of a result includes the row index, per sink
and layout. -/
def includesIndex (sink : Sink) (layout : Layout) (t : PTable) : Bool :=
  match sink with
  | .clipboard => match layout with
    | .xy => false
    | .standard => true
  | .file => pTableIsMultiIndex t

/-- Whether the serialised text includes the header row, per sink: both sinks
pass the header-inclusion checkbox straight through. -/
def includesHeader (_ : Sink) (flag : Bool) : Bool := flag

/-! ## XY reshape (`reshape_to_xy_format`)

Each per-file result is melted column-major into (Sample, Group, Value)
triples — a melt keeps missing values — the combined key is
`f"{sample}_{group}"`, the key set is unioned and sorted, the per-key width
is the maximum occurrence count in any one file, and each file becomes one
output row, its values per key laid out in appearance order and padded with
`None`. -/

/-- Positional cell access into a table's data grid. -/
def cellAt (t : PTable) (ri ci : Nat) : Option ℚ := (t.data.getD ri []).getD ci none

/-- `pd.melt(df_reset, id_vars=['Sample'])`: column-major (Sample, Group,
Value) triples. -/
def melt (t : PTable) : List (String × String × Option ℚ) :=
  t.cols.enum.flatMap fun ci =>
    t.rows.enum.map fun ri => (ri.2, ci.2, cellAt t ri.1 ci.1)

/-- The combined `Sample_Group` key. -/
def combineKey (s g : String) : String := s ++ "_" ++ g

/-- The combined keys occurring in one table (with repetition). -/
def keysOf (t : PTable) : List String :=
  (melt t).map fun x => combineKey x.1 x.2.1

/-- A file's values for a combined key, in melt (appearance) order, missing
cells included. -/
def valuesFor (t : PTable) (k : String) : List (Option ℚ) :=
  (melt t).filterMap fun x =>
    if combineKey x.1 x.2.1 == k then some x.2.2 else none

/-- The sorted union of combined keys across all files
(`sorted(list(all_columns))`). -/
def allKeys (ts : List PTable) : List String :=
  sortLex ((ts.flatMap keysOf).dedup)

/-- The per-key maximum occurrence count over the files
(`max_replicates_by_group`). -/
def maxReps (ts : List PTable) (k : String) : Nat :=
  ts.foldr (fun t m => max (valuesFor t k).length m) 0

/-- Right-pad a value list with `None` up to the target width. -/
def padTo (l : List (Option ℚ)) (n : Nat) : List (Option ℚ) :=
  l ++ List.replicate (n - l.length) none

/-- One output row of the XY result: for each key (sorted), the file's
values padded to the key's global width. -/
def xyRowFor (ts : List PTable) (t : PTable) : List (Option ℚ) :=
  (allKeys ts).flatMap fun k => padTo (valuesFor t k) (maxReps ts k)

/-- The XY result's column labels: each key repeated to its width. -/
def xyCols (ts : List PTable) : List String :=
  (allKeys ts).flatMap fun k => List.replicate (maxReps ts k) k

/-- An XY result: unlabeled rows (RangeIndex), repeated column labels. -/
structure XYTable where
  cols : List String
  data : List (List (Option ℚ))
  deriving DecidableEq, Repr

/-- `reshape_to_xy_format` over the per-file aggregation results. -/
def reshapeToXY (ts : List PTable) : XYTable :=
  { cols := xyCols ts
    data := ts.map fun t => xyRowFor ts t }

/-! ## Facts about order resolution -/

theorem mem_resolveOrder {observed : List String} {d : Option (List String)}
    {x : String} : x ∈ resolveOrder observed d ↔ x ∈ observed := by
  unfold resolveOrder
  match d with
  | none => simp [mem_sortLex]
  | some dl =>
    by_cases hd : dl.isEmpty
    · simp [hd, mem_sortLex]
    · simp only [hd, Bool.false_eq_true, if_false, List.mem_append]
      constructor
      · rintro (h | h)
        · have := List.mem_filter.mp h
          exact List.mem_dedup.mp (of_decide_eq_true this.2)
        · have := List.mem_filter.mp (mem_sortLex.mp h)
          exact List.mem_dedup.mp this.1
      · intro hx
        by_cases hxd : x ∈ dl
        · left
          exact List.mem_filter.mpr ⟨hxd, decide_eq_true (List.mem_dedup.mpr hx)⟩
        · right
          rw [mem_sortLex]
          apply List.mem_filter.mpr
          refine ⟨List.mem_dedup.mpr hx, decide_eq_true ?_⟩
          intro hcon
          exact hxd (List.mem_filter.mp hcon).1

/-- The declared-order prefix kept by `resolveOrder` can test membership in
the raw observed list rather than its de-duplication. -/
theorem resolveOrder_eq_of_declared {observed dl : List String}
    (hd : ¬ dl.isEmpty = true) :
    resolveOrder observed (some dl)
      = (dl.filter fun g => decide (g ∈ observed))
        ++ sortLex (observed.dedup.filter fun g => decide (g ∉ dl)) := by
  unfold resolveOrder
  simp only [hd, Bool.false_eq_true, if_false]
  congr 1
  · apply List.filter_congr
    intro x _
    simp [List.mem_dedup]
  · congr 1
    apply List.filter_congr
    intro x hx
    have hobs : x ∈ observed := List.mem_dedup.mp hx
    by_cases hxd : x ∈ dl
    · have : x ∈ dl.filter fun g => decide (g ∈ observed.dedup) := by
        simp [List.mem_filter, hxd, hx, hobs]
      simp [this, hxd, hobs]
    · have : x ∉ dl.filter fun g => decide (g ∈ observed.dedup) := by
        simp [List.mem_filter, hxd]
      simp [this, hxd]

/-- C4. For every set of observed group labels and every optional declared
order, the resolved order is the observed declared entries in declared order
followed by the remaining observed labels sorted ascending lexically; with no
declared order everything is sorted; and declared entries that are not
observed never appear. -/
theorem C4_group_order_resolution (observed dl : List String) :
    (¬ dl.isEmpty = true →
      resolveOrder observed (some dl)
        = (dl.filter fun g => decide (g ∈ observed))
          ++ sortLex (observed.dedup.filter fun g => decide (g ∉ dl)))
    ∧ (sortLex (observed.dedup.filter fun g => decide (g ∉ dl))).Sorted strLeR
    ∧ (∀ x, x ∈ sortLex (observed.dedup.filter fun g => decide (g ∉ dl)) ↔
        (x ∈ observed ∧ x ∉ dl))
    ∧ ((resolveOrder observed none).Sorted strLeR
        ∧ (resolveOrder observed none).Nodup
        ∧ (∀ x, x ∈ resolveOrder observed none ↔ x ∈ observed))
    ∧ (∀ x ∈ dl, x ∉ observed → x ∉ resolveOrder observed (some dl)) := by
  refine ⟨resolveOrder_eq_of_declared, sortLex_sorted _, ?_, ⟨?_, ?_, ?_⟩, ?_⟩
  · intro x
    simp [mem_sortLex, List.mem_filter, List.mem_dedup]
  · unfold resolveOrder
    exact sortLex_sorted _
  · unfold resolveOrder
    exact sortLex_nodup (List.nodup_dedup observed)
  · intro x
    exact mem_resolveOrder
  · intro x _ hobs hmem
    exact hobs (mem_resolveOrder.mp hmem)

/-- Witness for C4 at a concrete observed list and declared order. -/
theorem C4_witness :
    ¬ (["G2", "G9"] : List String).isEmpty = true
    ∧ resolveOrder ["G1", "G2", "G1", "G3"] (some ["G2", "G9"])
        = ((["G2", "G9"] : List String).filter fun g =>
            decide (g ∈ ["G1", "G2", "G1", "G3"]))
          ++ sortLex ((["G1", "G2", "G1", "G3"] : List String).dedup.filter
              fun g => decide (g ∉ ["G2", "G9"]))
    ∧ ("G9" ∈ (["G2", "G9"] : List String) → "G9" ∉ ["G1", "G2", "G1", "G3"] →
        "G9" ∉ resolveOrder ["G1", "G2", "G1", "G3"] (some ["G2", "G9"])) :=
  ⟨by decide,
    (C4_group_order_resolution ["G1", "G2", "G1", "G3"] ["G2", "G9"]).1 (by decide),
    fun h1 h2 =>
      (C4_group_order_resolution ["G1", "G2", "G1", "G3"] ["G2", "G9"]).2.2.2.2
        "G9" h1 h2⟩

/-! ## Concrete example data (the spec's scenario) -/

def exSMap : List (String × String) := [("A01", "S1"), ("A02", "S2")]

def exGMap : List (String × String) := [("A01", "G1"), ("A02", "G1")]

def exMRows : List MRow := [⟨"x_A01.fcs", some 10⟩, ⟨"x_A02.fcs", some 20⟩]

def exKept : List JRow := keptRows exSMap exGMap Axis.sample ["All"] exMRows

/-! ## C5: declared sample order restricts the final rows -/

/-- C5. With a declared sample order present, the final row order of an
aggregation result (Individual or Mean/dispersion) is the declared order
restricted to the samples present, and samples present but not declared are
dropped. -/
theorem C5_sample_row_order (rows : List JRow) (gOrd : Option (List String))
    (d : List String) (hd : ¬ d.isEmpty = true) :
    (∀ t, indResult rows gOrd (some d) = some t →
      t.rows = d.filter (fun s => decide (s ∈ indRows rows))
      ∧ ∀ s, s ∈ indRows rows → s ∉ d → s ∉ t.rows)
    ∧ (msFinalRows rows (some d) = d.filter (fun s => decide (s ∈ msRowsIdx rows))
      ∧ ∀ s, s ∈ msRowsIdx rows → s ∉ d → s ∉ msFinalRows rows (some d)) := by
  have happ : ∀ idx : List String,
      applySampleOrder idx (some d) = d.filter (fun s => decide (s ∈ idx)) := by
    intro idx
    unfold applySampleOrder
    simp [hd]
  constructor
  · intro t ht
    unfold indResult at ht
    by_cases hemp : (annValid rows).isEmpty
    · simp [hemp] at ht
    · simp only [hemp, Bool.false_eq_true, if_false, Option.some.injEq] at ht
      have hrows : t.rows = applySampleOrder (indRows rows) (some d) := by
        rw [← ht]
      rw [happ] at hrows
      refine ⟨hrows, ?_⟩
      intro s _ hsd hmem
      rw [hrows] at hmem
      exact hsd (List.mem_filter.mp hmem).1
  · rw [msFinalRows, happ]
    refine ⟨rfl, ?_⟩
    intro s _ hsd hmem
    exact hsd (List.mem_filter.mp hmem).1

/-- Witness for C5: declared order `["S2"]` keeps row S2 and drops the
present sample S1. -/
theorem C5_witness :
    (⟨["S2"], ["G1"], [[some (round2 20)]]⟩ : PTable).rows
      = (["S2"] : List String).filter (fun s => decide (s ∈ indRows exKept))
    ∧ ("S1" ∈ indRows exKept → "S1" ∉ (["S2"] : List String) →
        "S1" ∉ (⟨["S2"], ["G1"], [[some (round2 20)]]⟩ : PTable).rows) :=
  have h := (C5_sample_row_order exKept none ["S2"] (by decide)).1
    ⟨["S2"], ["G1"], [[some (round2 20)]]⟩ rfl
  ⟨h.1, fun h1 h2 => h.2 "S1" h1 h2⟩

/-! ## C6: row index and header inclusion on export

The claim fails on the file sink: `save_to_csv` passes
`index=isinstance(result.index, pd.MultiIndex)`, which is `False` for every
result `process_data` produces, so a Standard-layout file export omits the
row index that the clipboard export includes. -/

/-- C6 counterexample: at the file sink with Standard layout and a produced
(single-level-index) result, the serialised text does not include the row
index, refuting "includes the Sample row index iff the layout is Standard"
for both sinks. -/
theorem C6_counterexample :
    ¬ (includesIndex Sink.file Layout.standard ⟨["S1"], ["G1"], [[some 1]]⟩ = true
        ↔ Layout.standard = Layout.standard) := by decide

/-- C6 amended: the clipboard export includes the row index iff the layout is
Standard; the file export passes the `MultiIndex` test, which is false for
every produced result, so it never includes the row index; both sinks obey
the header-inclusion flag. -/
theorem C6_amended :
    (∀ l t, includesIndex Sink.clipboard l t = true ↔ l = Layout.standard)
    ∧ (∀ l t, includesIndex Sink.file l t = false)
    ∧ (∀ sink flag, includesHeader sink flag = flag) := by
  refine ⟨?_, ?_, ?_⟩
  · intro l t
    cases l <;> simp [includesIndex]
  · intro l t
    rfl
  · intro sink flag
    rfl

/-! ## C7: a failed load and the previously loaded state

The claim fails: `load_sample_map` stores the new declared order *before*
calling `process_plate_map`, and the latter raises (`df.iloc[0]` on a
zero-row frame), so a parse failure reports an error yet has already replaced
the declared order. -/

def c7st : SessionState :=
  ⟨some [("A01", "S1")], some ["X"], some [("A01", "G1")], some ["Y"]⟩

/-- C7 counterexample: loading an empty grid fails during parsing — the
status reports an error — but the stored declared sample order is no longer
the previously loaded one. -/
theorem C7_counterexample :
    (load_sample_map c7st (some ([] : Grid))).2 = LoadStatus.loadError
    ∧ (load_sample_map c7st (some ([] : Grid))).1.sample_order
        ≠ c7st.sample_order := by decide

/-- C7 amended: a load that fails while reading the file leaves the whole
state untouched and reports an error; a load that fails while parsing leaves
both plate maps and the other map's order untouched and reports an error, but
has already overwritten its own declared order with the new file's order
column. -/
theorem C7_amended (st : SessionState) (read : Option Grid) :
    (read = none →
      load_sample_map st read = (st, LoadStatus.loadError)
      ∧ load_group_map st read = (st, LoadStatus.loadError))
    ∧ (∀ g e, read = some g → processPlateMap g = Except.error e →
      (load_sample_map st read).1.sample_map = st.sample_map
      ∧ (load_sample_map st read).1.group_map = st.group_map
      ∧ (load_sample_map st read).1.group_order = st.group_order
      ∧ (load_sample_map st read).1.sample_order = extractOrder g
      ∧ (load_sample_map st read).2 = LoadStatus.loadError
      ∧ (load_group_map st read).1.group_map = st.group_map
      ∧ (load_group_map st read).1.sample_map = st.sample_map
      ∧ (load_group_map st read).1.sample_order = st.sample_order
      ∧ (load_group_map st read).1.group_order = extractOrder g
      ∧ (load_group_map st read).2 = LoadStatus.loadError) := by
  constructor
  · rintro rfl
    exact ⟨rfl, rfl⟩
  · rintro g e rfl herr
    simp [load_sample_map, load_group_map, herr]

/-- Witness for C7 amended at the empty grid, whose parse fails. -/
theorem C7_witness :
    processPlateMap ([] : Grid) = Except.error "IndexError"
    ∧ (load_sample_map c7st (some ([] : Grid))).1.sample_map = c7st.sample_map
    ∧ (load_sample_map c7st (some ([] : Grid))).1.sample_order
        = extractOrder ([] : Grid)
    ∧ (load_sample_map c7st (some ([] : Grid))).2 = LoadStatus.loadError :=
  have h := (C7_amended c7st (some ([] : Grid))).2 [] "IndexError" rfl rfl
  ⟨rfl, h.1, h.2.2.2.1, h.2.2.2.2.1⟩

/-! ## C8: shape of the emitted well ids -/

/-- Does a string match `^[A-Z][0-9]{2}$`? -/
def isWellIdFormat (w : String) : Bool :=
  match w.data with
  | [a, b, c] =>
    (65 ≤ a.toNat && a.toNat ≤ 90) && (48 ≤ b.toNat && b.toNat ≤ 57)
      && (48 ≤ c.toNat && c.toNat ≤ 57)
  | _ => false

set_option maxRecDepth 4000 in
theorem charOfNat_toNat : ∀ n < 256, (Char.ofNat n).toNat = n := by decide

theorem pad2_of_lt {c : Nat} (h : c < 100) :
    pad2 c = [Char.ofNat (48 + c / 10), Char.ofNat (48 + c % 10)] := by
  simp [pad2, h]

theorem isWellIdFormat_wellIdStr {r c : Nat} (hr : r < 26) (hc : c < 100) :
    isWellIdFormat (wellIdStr r c) = true := by
  have h1 : (Char.ofNat (65 + r)).toNat = 65 + r := charOfNat_toNat _ (by omega)
  have h2 : (Char.ofNat (48 + c / 10)).toNat = 48 + c / 10 :=
    charOfNat_toNat _ (by omega)
  have h3 : (Char.ofNat (48 + c % 10)).toNat = 48 + c % 10 :=
    charOfNat_toNat _ (by omega)
  simp only [isWellIdFormat, wellIdStr, pad2_of_lt hc, h1, h2, h3]
  simp only [Bool.and_eq_true, decide_eq_true_eq]
  omega

theorem wellIdStr_inj {r r' c c' : Nat} (hr : r < 26) (hr' : r' < 26)
    (hc : c < 100) (hc' : c' < 100) (h : wellIdStr r c = wellIdStr r' c') :
    r = r' ∧ c = c' := by
  unfold wellIdStr at h
  rw [pad2_of_lt hc, pad2_of_lt hc'] at h
  have hdata : Char.ofNat (65 + r) :: [Char.ofNat (48 + c / 10),
      Char.ofNat (48 + c % 10)] = Char.ofNat (65 + r') ::
        [Char.ofNat (48 + c' / 10), Char.ofNat (48 + c' % 10)] :=
    congrArg String.data h
  have h0 := congrArg Char.toNat (List.head_eq_of_cons_eq hdata)
  have htail := List.tail_eq_of_cons_eq hdata
  have h1 := congrArg Char.toNat (List.head_eq_of_cons_eq htail)
  have h2 := congrArg Char.toNat
    (List.head_eq_of_cons_eq (List.tail_eq_of_cons_eq htail))
  rw [charOfNat_toNat _ (by omega), charOfNat_toNat _ (by omega)] at h0
  rw [charOfNat_toNat _ (by omega), charOfNat_toNat _ (by omega)] at h1
  rw [charOfNat_toNat _ (by omega), charOfNat_toNat _ (by omega)] at h2
  omega

theorem lastRow_lt {g : Grid} (h : g.length ≠ 0) : lastRow g < g.length := by
  unfold lastRow
  split
  · next i hfind =>
    have hmem : i ∈ (List.range g.length).reverse := List.mem_of_find?_eq_some hfind
    rw [List.mem_reverse, List.mem_range] at hmem
    exact hmem
  · omega

theorem mem_processPlateMap {g : Grid} {out : List (String × String)}
    (hok : processPlateMap g = Except.ok out) {p : String × String}
    (hp : p ∈ out) :
    ∃ r c, r ≤ lastRow g ∧ 1 ≤ c ∧ c < (g.getD r []).length ∧
      (g.getD r []).getD c none = some p.2 ∧ p.1 = wellIdStr r c := by
  unfold processPlateMap at hok
  by_cases hlen : g.length = 0
  · simp [hlen] at hok
  · simp only [hlen, if_false, Except.ok.injEq] at hok
    rw [← hok] at hp
    rcases List.mem_flatMap.mp hp with ⟨r, hr, hmem⟩
    rcases List.mem_filterMap.mp hmem with ⟨c, hc, heq⟩
    rw [List.mem_range] at hr hc
    by_cases hc0 : c = 0
    · simp [hc0] at heq
    · simp only [hc0, if_false] at heq
      rcases Option.map_eq_some'.mp heq with ⟨v, hv, hpv⟩
      refine ⟨r, c, by omega, by omega, hc, ?_, ?_⟩
      · rw [hv, ← hpv]
      · rw [← hpv]

/-- C8. On a valid grid (at most 26 rows — plate rows A–Z — and at most 99
value columns), every emitted well id matches `^[A-Z][0-9]{2}$`, every
emitted pair reads a non-blank cell, and no well id is emitted for a blank
cell. -/
theorem C8_wellgrid_wellids (g : Grid) (hrow : g.length ≤ 26)
    (hcol : ∀ row ∈ g, row.length ≤ 100) (out : List (String × String))
    (hok : processPlateMap g = Except.ok out) :
    (∀ p ∈ out, isWellIdFormat p.1 = true)
    ∧ (∀ p ∈ out, ∃ r c, 1 ≤ c ∧ (g.getD r []).getD c none = some p.2
        ∧ p.1 = wellIdStr r c)
    ∧ (∀ r c, r < g.length → 1 ≤ c → c < 100 →
        (g.getD r []).getD c none = none → wellIdStr r c ∉ out.map Prod.fst) := by
  have hne : g.length ≠ 0 := by
    intro h0
    unfold processPlateMap at hok
    simp [h0] at hok
  have hbound : ∀ r, r ≤ lastRow g → r < 26 := by
    intro r hr
    have := lastRow_lt hne
    omega
  have hcolbound : ∀ r, (g.getD r []).length ≤ 100 := by
    intro r
    by_cases hrl : r < g.length
    · rw [List.getD_eq_getElem g [] hrl]
      exact hcol _ (List.getElem_mem hrl)
    · rw [List.getD_eq_default]
      · simp
      · omega
  refine ⟨?_, ?_, ?_⟩
  · intro p hp
    rcases mem_processPlateMap hok hp with ⟨r, c, hr, hc1, hclen, _, hpw⟩
    rw [hpw]
    exact isWellIdFormat_wellIdStr (hbound r hr) (by have := hcolbound r; omega)
  · intro p hp
    rcases mem_processPlateMap hok hp with ⟨r, c, _, hc1, _, hcell, hpw⟩
    exact ⟨r, c, hc1, hcell, hpw⟩
  · intro r c hrlen hc1 hc100 hblank hmem
    rcases List.mem_map.mp hmem with ⟨p, hp, hfst⟩
    rcases mem_processPlateMap hok hp with ⟨r', c', hr', hc1', hclen', hcell', hpw⟩
    rw [hpw] at hfst
    have hr26 : r < 26 := by omega
    have hc'100 : c' < 100 := by have := hcolbound r'; omega
    have hinj := wellIdStr_inj (hbound r' hr') hr26 hc'100 hc100 hfst
    rw [← hinj.1, ← hinj.2] at hblank
    rw [hblank] at hcell'
    exact Option.noConfusion hcell'

/-- Witness for C8 at a one-row grid with one non-blank cell. -/
theorem C8_witness :
    processPlateMap ([[none, some "X"]] : Grid) = Except.ok [("A01", "X")]
    ∧ (∀ p ∈ [(("A01" : String), ("X" : String))], isWellIdFormat p.1 = true) :=
  have h := C8_wellgrid_wellids [[none, some "X"]] (by decide)
    (by intro row hr; simp at hr; simp [hr]) [("A01", "X")] rfl
  ⟨rfl, h.1⟩

/-! ## C2: Mean / SD / SEM cells -/

theorem mem_applyFilter_subset {a : Axis} {opts : List String} {l : List JRow}
    {r : JRow} (h : r ∈ applyFilter a opts l) : r ∈ l := by
  unfold applyFilter at h
  split at h
  · exact h
  · exact List.mem_of_mem_filter h

theorem keptRows_value_round2 {smap gmap : List (String × String)} {a : Axis}
    {opts : List String} {mrows : List MRow} {r : JRow}
    (hr : r ∈ keptRows smap gmap a opts mrows) {v : ℚ}
    (hv : r.value = some v) : ∃ q, v = round2 q := by
  have hjoin : r ∈ joinAll smap gmap mrows := mem_applyFilter_subset hr
  rcases List.mem_map.mp hjoin with ⟨m, _, hm⟩
  rw [← hm] at hv
  unfold joinRow at hv
  simp only at hv
  rcases Option.map_eq_some'.mp hv with ⟨q, _, hq⟩
  exact ⟨q, hq.symm⟩

theorem mem_obsVals {rows : List JRow} {s g : String} {v : ℚ}
    (h : v ∈ obsVals rows s g) : ∃ r ∈ rows, r.value = some v := by
  unfold obsVals at h
  rcases List.mem_filterMap.mp h with ⟨x, hx, hxv⟩
  unfold pairVals at hx
  rcases List.mem_map.mp hx with ⟨r, hr, hrv⟩
  refine ⟨r, List.mem_of_mem_filter hr, ?_⟩
  rw [hrv]
  exact hxv

/-- C2. For every (sample, group) pair present after filtering, the emitted
`<Group>_Mean` is the arithmetic mean of the non-missing readings rounded to
two decimals, and `<Group>_SD` / `<Group>_SEM` is the sample standard
deviation / standard error of the mean over the non-missing readings rounded
to two decimals; with exactly one non-missing reading the dispersion cell is
missing while the mean equals that single reading. -/
theorem C2_mean_dispersion (smap gmap : List (String × String)) (a : Axis)
    (opts : List String) (mrows : List MRow) (s g : String)
    (hp : pairPresent (keptRows smap gmap a opts mrows) s g) :
    (emittedMean (keptRows smap gmap a opts mrows) s g
        = specMean (obsVals (keptRows smap gmap a opts mrows) s g))
    ∧ (emittedDisp Disp.sd (keptRows smap gmap a opts mrows) s g
        = specSD (obsVals (keptRows smap gmap a opts mrows) s g))
    ∧ (emittedDisp Disp.sem (keptRows smap gmap a opts mrows) s g
        = specSEM (obsVals (keptRows smap gmap a opts mrows) s g))
    ∧ (∀ v, obsVals (keptRows smap gmap a opts mrows) s g = [v] →
        emittedDisp Disp.sd (keptRows smap gmap a opts mrows) s g = none
        ∧ emittedDisp Disp.sem (keptRows smap gmap a opts mrows) s g = none
        ∧ emittedMean (keptRows smap gmap a opts mrows) s g = some v) := by
  refine ⟨rfl, rfl, rfl, ?_⟩
  intro v hv
  have hvmem : v ∈ obsVals (keptRows smap gmap a opts mrows) s g := by
    rw [hv]
    exact List.mem_singleton_self v
  rcases mem_obsVals hvmem with ⟨r, hr, hrv⟩
  rcases keptRows_value_round2 hr hrv with ⟨q, hq⟩
  have hround : round2 v = v := by
    rw [hq, round2_idem]
  refine ⟨?_, ?_, ?_⟩
  · simp [emittedDisp, hv]
  · simp [emittedDisp, hv]
  · simp only [emittedMean, hv, List.isEmpty_cons, Bool.false_eq_true, if_false,
      List.sum_cons, List.sum_nil, List.length_cons, List.length_nil]
    rw [add_zero, Nat.cast_one, div_one, hround]

/-- Witness for C2: the pair (S1, G1) of the scenario data has the single
reading 10, so its SD and SEM cells are missing while its mean is that
reading. -/
theorem C2_witness :
    pairPresent exKept "S1" "G1"
    ∧ emittedDisp Disp.sd exKept "S1" "G1" = none
    ∧ emittedDisp Disp.sem exKept "S1" "G1" = none
    ∧ emittedMean exKept "S1" "G1" = some (round2 10) :=
  have h := (C2_mean_dispersion exSMap exGMap Axis.sample ["All"] exMRows "S1" "G1"
    (by decide)).2.2.2 (round2 10) rfl
  ⟨by decide, h.1, h.2.1, h.2.2⟩

/-! ## C10: what the XY replicate count actually counts -/

theorem length_filterMap_if {α β : Type _} (l : List α) (p : α → Bool)
    (f : α → β) :
    (l.filterMap fun x => if p x then some (f x) else none).length
      = (l.filter p).length := by
  induction l with
  | nil => rfl
  | cons x xs ih =>
    by_cases hx : p x
    · simp [List.filterMap_cons, List.filter_cons, hx, ih]
    · simp [List.filterMap_cons, List.filter_cons, hx, ih]

theorem length_filter_flatMap {α β : Type _} (l : List α) (f : α → List β)
    (p : β → Bool) :
    ((l.flatMap f).filter p).length
      = (l.map fun x => ((f x).filter p).length).sum := by
  induction l with
  | nil => rfl
  | cons x xs ih =>
    simp [List.flatMap_cons, List.filter_append, ih]

theorem countP_enumFrom {α : Type _} (p : Nat × α → Bool) (q : α → Bool)
    (hpq : ∀ x, p x = q x.2) :
    ∀ (l : List α) (n : Nat), (List.enumFrom n l).countP p = l.countP q := by
  intro l
  induction l with
  | nil => intro n; rfl
  | cons x xs ih =>
    intro n
    rw [List.enumFrom, List.countP_cons, List.countP_cons, hpq, ih]

theorem countP_enum {α : Type _} (l : List α) (p : Nat × α → Bool)
    (q : α → Bool) (hpq : ∀ x, p x = q x.2) :
    l.enum.countP p = l.countP q :=
  countP_enumFrom p q hpq l 0

theorem string_append_right_cancel {s₁ s₂ t : String} (h : s₁ ++ t = s₂ ++ t) :
    s₁ = s₂ := by
  have hd : s₁.data ++ t.data = s₂.data ++ t.data := by
    have := congrArg String.data h
    simpa [String.data_append] using this
  exact congrArg String.mk (List.append_cancel_right hd)

theorem combineKey_left_inj {s₁ s₂ g : String}
    (h : combineKey s₁ g = combineKey s₂ g) : s₁ = s₂ := by
  unfold combineKey at h
  have h0 : (s₁ ++ "_") ++ g = (s₂ ++ "_") ++ g := by
    simpa [String.append_assoc] using h
  have h1 : s₁ ++ "_" = s₂ ++ "_" := string_append_right_cancel h0
  exact string_append_right_cancel h1

/-- The per-column contribution to a key's occurrence count. -/
theorem filter_rows_key_count (t : PTable) (s g c : String) (hnd : t.rows.Nodup)
    (hs : s ∈ t.rows) (hc : c ∈ t.cols)
    (hnc : ∀ s' ∈ t.rows, ∀ c' ∈ t.cols,
      combineKey s' c' = combineKey s g → s' = s ∧ c' = g) :
    (t.rows.filter fun s' => combineKey s' c == combineKey s g).length
      = if c = g then 1 else 0 := by
  by_cases hcg : c = g
  · subst hcg
    have hfe : (t.rows.filter fun s' => combineKey s' c == combineKey s c)
        = t.rows.filter fun s' => s' == s := by
      apply List.filter_congr
      intro x _
      by_cases hx : x = s
      · simp [hx]
      · have : ¬ combineKey x c = combineKey s c := fun hk => hx (combineKey_left_inj hk)
        simp [hx, this]
    rw [hfe, if_pos rfl]
    have hcnt := List.count_eq_one_of_mem hnd hs
    rw [List.count_eq_countP, List.countP_eq_length_filter] at hcnt
    exact hcnt
  · rw [if_neg hcg]
    have hfe : (t.rows.filter fun s' => combineKey s' c == combineKey s g) = [] := by
      apply List.filter_eq_nil_iff.mpr
      intro x hx
      simp only [beq_iff_eq]
      intro hk
      exact hcg (hnc x hx c hc hk).2
    rw [hfe]
    rfl

theorem sum_map_ite_one {α : Type _} (l : List α) (pr : α → Prop)
    [DecidablePred pr] :
    (l.map fun x => if pr x then 1 else 0).sum
      = l.countP fun x => decide (pr x) := by
  induction l with
  | nil => rfl
  | cons x xs ih =>
    rw [List.map_cons, List.sum_cons, List.countP_cons, ih]
    by_cases hx : pr x
    · simp [hx]
      omega
    · simp [hx]

/-- The recorded replicate count of a combined key in one file counts that
file's table cells — missing readings included. -/
theorem valuesFor_length_eq_col_count (t : PTable) (s g : String)
    (hnd : t.rows.Nodup) (hs : s ∈ t.rows)
    (hnc : ∀ s' ∈ t.rows, ∀ c' ∈ t.cols,
      combineKey s' c' = combineKey s g → s' = s ∧ c' = g) :
    (valuesFor t (combineKey s g)).length = t.cols.count g := by
  unfold valuesFor
  rw [length_filterMap_if, melt, length_filter_flatMap]
  have hcols : ∀ ci ∈ t.cols.enum,
      (((t.rows.enum.map fun ri => (ri.2, ci.2, cellAt t ri.1 ci.1)).filter
          fun x => combineKey x.1 x.2.1 == combineKey s g).length : Nat)
        = if ci.2 = g then 1 else 0 := by
    intro ci hci
    rw [← List.countP_eq_length_filter, List.countP_map]
    rw [countP_enum t.rows
      ((fun x : String × String × Option ℚ =>
          combineKey x.1 x.2.1 == combineKey s g) ∘
        fun ri : Nat × String => (ri.2, ci.2, cellAt t ri.1 ci.1))
      (fun s' => combineKey s' ci.2 == combineKey s g) (fun x => rfl)]
    have hc2 : ci.2 ∈ t.cols := by
      have hsnd : ci.2 ∈ t.cols.enum.map Prod.snd := List.mem_map_of_mem Prod.snd hci
      rwa [List.enum_map_snd] at hsnd
    rw [List.countP_eq_length_filter]
    exact filter_rows_key_count t s g ci.2 hnd hs hc2 hnc
  rw [List.map_congr_left hcols, sum_map_ite_one]
  rw [countP_enum t.cols (fun x => decide (x.2 = g)) (fun c => decide (c = g))
    (fun x => rfl)]
  rw [List.count_eq_countP, List.countP_eq_length_filter, List.countP_eq_length_filter]
  apply congrArg
  apply List.filter_congr
  intro x _
  by_cases hx : x = g <;> simp [hx]

theorem padTo_length (l : List (Option ℚ)) (n : Nat) :
    (padTo l n).length = max n l.length := by
  simp only [padTo, List.length_append, List.length_replicate]
  omega

theorem maxReps_ge {ts : List PTable} {t : PTable} (h : t ∈ ts) (k : String) :
    (valuesFor t k).length ≤ maxReps ts k := by
  induction ts with
  | nil => cases h
  | cons t' ts' ih =>
    unfold maxReps
    rcases List.mem_cons.mp h with rfl | hmem
    · simp
    · have := ih hmem
      unfold maxReps at this
      simp only [List.foldr_cons]
      omega

theorem flatMap_length_congr {α β γ : Type _} (l : List α) (f : α → List β)
    (h : α → List γ) (he : ∀ x ∈ l, (f x).length = (h x).length) :
    (l.flatMap f).length = (l.flatMap h).length := by
  induction l with
  | nil => rfl
  | cons x xs ih =>
    simp only [List.flatMap_cons, List.length_append]
    rw [he x (List.mem_cons_self x xs), ih fun y hy => he y (List.mem_cons_of_mem x hy)]

/-- Every XY output row has the full width of the column-label list. -/
theorem xyRowFor_length {ts : List PTable} {t : PTable} (h : t ∈ ts) :
    (xyRowFor ts t).length = (xyCols ts).length := by
  unfold xyRowFor xyCols
  apply flatMap_length_congr
  intro k _
  rw [padTo_length, List.length_replicate]
  have := maxReps_ge h k
  omega

/-- C10. The replicate count recorded for a combined key in a file counts the
columns bearing that group label — missing cells included — so every output
row has the same total width, and a key's block can be wider than its largest
non-missing observation count (e.g. a single file with columns G1, G1 and
readings 1, missing gives block width 2 but only one observation). -/
theorem C10_xy_replicate_semantics :
    (∀ (t : PTable) (s g : String), t.rows.Nodup → s ∈ t.rows →
      (∀ s' ∈ t.rows, ∀ c' ∈ t.cols,
        combineKey s' c' = combineKey s g → s' = s ∧ c' = g) →
      (valuesFor t (combineKey s g)).length = t.cols.count g)
    ∧ (∀ (ts : List PTable) (t : PTable), t ∈ ts →
        (xyRowFor ts t).length = (xyCols ts).length)
    ∧ (maxReps [⟨["S1"], ["G1", "G1"], [[some 1, none]]⟩] "S1_G1" = 2
        ∧ ((valuesFor (⟨["S1"], ["G1", "G1"], [[some 1, none]]⟩ : PTable)
            "S1_G1").filterMap id).length = 1
        ∧ (xyCols [⟨["S1"], ["G1", "G1"], [[some 1, none]]⟩]).count "S1_G1" = 2) := by
  refine ⟨?_, ?_, ?_, ?_, ?_⟩
  · intro t s g hnd hs hnc
    exact valuesFor_length_eq_col_count t s g hnd hs hnc
  · intro ts t ht
    exact xyRowFor_length ht
  · decide
  · decide
  · decide

/-- Witness for C10 at a two-column single-file table. -/
theorem C10_witness :
    ((⟨["S1"], ["G1", "G1"], [[some 1, none]]⟩ : PTable).rows.Nodup
      ∧ "S1" ∈ (⟨["S1"], ["G1", "G1"], [[some 1, none]]⟩ : PTable).rows)
    ∧ (valuesFor (⟨["S1"], ["G1", "G1"], [[some 1, none]]⟩ : PTable)
        (combineKey "S1" "G1")).length
      = (⟨["S1"], ["G1", "G1"], [[some 1, none]]⟩ : PTable).cols.count "G1" :=
  ⟨⟨by decide, by decide⟩,
    C10_xy_replicate_semantics.1 ⟨["S1"], ["G1", "G1"], [[some 1, none]]⟩ "S1" "G1"
      (by decide) (by decide) (by decide)⟩

/-! ## C3: shape and content of the XY result -/

theorem allKeys_sorted (ts : List PTable) : (allKeys ts).Sorted strLeR :=
  sortLex_sorted _

theorem allKeys_nodup (ts : List PTable) : (allKeys ts).Nodup :=
  sortLex_nodup (List.nodup_dedup _)

theorem mem_allKeys {ts : List PTable} {k : String} :
    k ∈ allKeys ts ↔ ∃ t ∈ ts, k ∈ keysOf t := by
  unfold allKeys
  rw [mem_sortLex, List.mem_dedup, List.mem_flatMap]

theorem count_flatMap_replicate_zero {k : String} (n : String → Nat) :
    ∀ {l : List String}, k ∉ l →
      ((l.flatMap fun x => List.replicate (n x) x).count k) = 0 := by
  intro l
  induction l with
  | nil => intro _; rfl
  | cons x xs ih =>
    intro hk
    have hkx : k ≠ x := fun h => hk (h ▸ List.mem_cons_self x xs)
    rw [List.flatMap_cons, List.count_append, List.count_replicate,
      ih (fun h => hk (List.mem_cons_of_mem x h))]
    simp [hkx, Ne.symm hkx]

theorem count_flatMap_replicate {l : List String} (hnd : l.Nodup)
    (n : String → Nat) {k : String} (hk : k ∈ l) :
    ((l.flatMap fun x => List.replicate (n x) x).count k) = n k := by
  induction l with
  | nil => cases hk
  | cons x xs ih =>
    rw [List.flatMap_cons, List.count_append, List.count_replicate]
    by_cases hxk : x = k
    · subst hxk
      rw [count_flatMap_replicate_zero n (List.nodup_cons.mp hnd).1]
      simp
    · have hmem : k ∈ xs := by
        rcases List.mem_cons.mp hk with h | h
        · exact absurd h.symm hxk
        · exact h
      rw [ih (List.nodup_cons.mp hnd).2 hmem]
      simp [hxk, Ne.symm hxk]

theorem maxReps_attained (ts : List PTable) (k : String) (h : ts ≠ []) :
    ∃ t ∈ ts, (valuesFor t k).length = maxReps ts k := by
  induction ts with
  | nil => exact absurd rfl h
  | cons t ts' ih =>
    by_cases hts : ts' = []
    · subst hts
      exact ⟨t, List.mem_cons_self t [], by simp [maxReps]⟩
    · rcases ih hts with ⟨t', ht', hlen⟩
      by_cases hle : maxReps ts' k ≤ (valuesFor t k).length
      · refine ⟨t, List.mem_cons_self t ts', ?_⟩
        unfold maxReps
        unfold maxReps at hle
        simp only [List.foldr_cons]
        omega
      · refine ⟨t', List.mem_cons_of_mem t ht', ?_⟩
        unfold maxReps
        unfold maxReps at hlen hle
        simp only [List.foldr_cons]
        omega

theorem zip_flatMap_blocks {α β γ : Type _} (l : List α) (f : α → List β)
    (h : α → List γ) (he : ∀ x ∈ l, (f x).length = (h x).length) :
    (l.flatMap f).zip (l.flatMap h) = l.flatMap fun x => (f x).zip (h x) := by
  induction l with
  | nil => rfl
  | cons x xs ih =>
    simp only [List.flatMap_cons]
    rw [List.zip_append (he x (List.mem_cons_self x xs)),
      ih fun y hy => he y (List.mem_cons_of_mem x hy)]

theorem filterMap_flatMap {α β γ : Type _} (l : List α) (g : α → List β)
    (f : β → Option γ) :
    (l.flatMap g).filterMap f = l.flatMap fun x => (g x).filterMap f := by
  induction l with
  | nil => rfl
  | cons x xs ih =>
    simp only [List.flatMap_cons, List.filterMap_append, ih]

theorem zip_replicate_left {α β : Type _} (a : α) :
    ∀ (n : Nat) (v : List β),
      (List.replicate n a).zip v = (v.take n).map fun y => (a, y)
  | 0, _ => rfl
  | _ + 1, [] => rfl
  | n + 1, y :: ys => by
    simp only [List.replicate, List.zip_cons_cons, List.take, List.map_cons]
    rw [zip_replicate_left a n ys]

theorem block_filterMap (k k' : String) (v : List (Option ℚ)) (n : Nat)
    (hlen : v.length = n) :
    (((List.replicate n k').zip v).filterMap fun cv =>
        if cv.1 == k then some cv.2 else none)
      = if k' = k then v else [] := by
  rw [zip_replicate_left, List.filterMap_map]
  have htake : v.take n = v := by
    rw [← hlen]
    exact List.take_length v
  rw [htake]
  by_cases hk : k' = k
  · subst hk
    have : ((fun cv : String × Option ℚ =>
        if cv.1 == k' then some cv.2 else none) ∘ fun y => (k', y))
          = fun y => some y := by
      funext y
      simp
    rw [this, List.filterMap_some]
    simp
  · rw [if_neg hk]
    have : ((fun cv : String × Option ℚ =>
        if cv.1 == k then some cv.2 else none) ∘ fun y => (k', y))
          = fun _ => none := by
      funext y
      simp [hk]
    rw [this]
    simp

theorem flatMap_single_key {l : List String} (hnd : l.Nodup) {k : String}
    (hk : k ∈ l) (G : String → List (Option ℚ))
    (hz : ∀ k' ∈ l, k' ≠ k → G k' = []) :
    l.flatMap G = G k := by
  induction l with
  | nil => cases hk
  | cons x xs ih =>
    rw [List.flatMap_cons]
    by_cases hxk : x = k
    · subst hxk
      have hknotxs : x ∉ xs := (List.nodup_cons.mp hnd).1
      have hnil : xs.flatMap G = [] := by
        apply List.flatMap_eq_nil_iff.mpr
        intro k' hk'
        apply hz k' (List.mem_cons_of_mem x hk')
        intro hcon
        exact hknotxs (hcon ▸ hk')
      rw [hnil, List.append_nil]
    · have hmem : k ∈ xs := by
        rcases List.mem_cons.mp hk with h | h
        · exact absurd h.symm hxk
        · exact h
      have hx : G x = [] := hz x (List.mem_cons_self x xs) hxk
      rw [hx, List.nil_append]
      exact ih (List.nodup_cons.mp hnd).2 hmem
        (fun k' hk' => hz k' (List.mem_cons_of_mem x hk'))

/-- The slice of an XY output row under one combined key's columns is that
file's value list for the key, padded to the key's global width. -/
theorem xy_block_content {ts : List PTable} {t : PTable} (ht : t ∈ ts)
    {k : String} (hk : k ∈ allKeys ts) :
    (((xyCols ts).zip (xyRowFor ts t)).filterMap fun cv =>
        if cv.1 == k then some cv.2 else none)
      = padTo (valuesFor t k) (maxReps ts k) := by
  unfold xyCols xyRowFor
  rw [zip_flatMap_blocks _ _ _ (by
    intro k' _
    rw [List.length_replicate, padTo_length]
    have := maxReps_ge ht k'
    omega)]
  rw [filterMap_flatMap]
  have hblocks : ∀ k' ∈ allKeys ts,
      (((List.replicate (maxReps ts k') k').zip
          (padTo (valuesFor t k') (maxReps ts k'))).filterMap fun cv =>
            if cv.1 == k then some cv.2 else none)
        = if k' = k then padTo (valuesFor t k) (maxReps ts k) else [] := by
    intro k' _
    rw [block_filterMap k k' _ _ (by
      rw [padTo_length]
      have := maxReps_ge ht k'
      omega)]
    by_cases hk' : k' = k
    · subst hk'
      rfl
    · simp [hk']
  rw [List.flatMap_congr hblocks]
  rw [flatMap_single_key (allKeys_nodup ts) hk _ (by
    intro k' _ hne
    simp [hne])]
  simp

/-- C3. The XY result has one row per input file; its column label list is
the sorted union of combined keys, each occupying its global maximum
replicate count of columns; and each row's block for a key is that file's
values in appearance order padded with nulls to the block width. -/
theorem C3_xy_reshape (ts : List PTable) :
    ((reshapeToXY ts).data.length = ts.length)
    ∧ (∀ t ∈ ts, xyRowFor ts t ∈ (reshapeToXY ts).data)
    ∧ ((allKeys ts).Sorted strLeR ∧ (allKeys ts).Nodup)
    ∧ (∀ k, k ∈ allKeys ts ↔ ∃ t ∈ ts, k ∈ keysOf t)
    ∧ (∀ k ∈ allKeys ts, ((reshapeToXY ts).cols.count k) = maxReps ts k)
    ∧ (∀ k, ∀ t ∈ ts, (valuesFor t k).length ≤ maxReps ts k)
    ∧ (∀ k, ts ≠ [] → ∃ t ∈ ts, (valuesFor t k).length = maxReps ts k)
    ∧ (∀ t ∈ ts, ∀ k ∈ allKeys ts,
        (((reshapeToXY ts).cols.zip (xyRowFor ts t)).filterMap fun cv =>
            if cv.1 == k then some cv.2 else none)
          = padTo (valuesFor t k) (maxReps ts k)) := by
  refine ⟨by simp [reshapeToXY], ?_, ⟨allKeys_sorted ts, allKeys_nodup ts⟩,
    fun k => mem_allKeys, ?_, ?_, ?_, ?_⟩
  · intro t ht
    simp only [reshapeToXY]
    exact List.mem_map_of_mem _ ht
  · intro k hk
    simp only [reshapeToXY]
    exact count_flatMap_replicate (allKeys_nodup ts) _ hk
  · intro k t ht
    exact maxReps_ge ht k
  · intro k h
    exact maxReps_attained ts k h
  · intro t ht k hk
    exact xy_block_content ht hk

/-- Witness for C3: the spec scenario — file A with two replicates of
`S1_G1`, file B with one — yields a width-two block in both rows, with B's
second slot null. -/
theorem C3_witness :
    ((⟨["S1"], ["G1"], [[some 3]]⟩ : PTable)
        ∈ [(⟨["S1"], ["G1", "G1"], [[some 1, some 2]]⟩ : PTable),
           ⟨["S1"], ["G1"], [[some 3]]⟩]
      ∧ "S1_G1" ∈ allKeys
        [(⟨["S1"], ["G1", "G1"], [[some 1, some 2]]⟩ : PTable),
         ⟨["S1"], ["G1"], [[some 3]]⟩])
    ∧ (((reshapeToXY
          [(⟨["S1"], ["G1", "G1"], [[some 1, some 2]]⟩ : PTable),
           ⟨["S1"], ["G1"], [[some 3]]⟩]).cols.zip
        (xyRowFor
          [(⟨["S1"], ["G1", "G1"], [[some 1, some 2]]⟩ : PTable),
           ⟨["S1"], ["G1"], [[some 3]]⟩]
          ⟨["S1"], ["G1"], [[some 3]]⟩)).filterMap fun cv =>
            if cv.1 == "S1_G1" then some cv.2 else none)
      = padTo (valuesFor (⟨["S1"], ["G1"], [[some 3]]⟩ : PTable) "S1_G1")
          (maxReps
            [(⟨["S1"], ["G1", "G1"], [[some 1, some 2]]⟩ : PTable),
             ⟨["S1"], ["G1"], [[some 3]]⟩] "S1_G1") :=
  ⟨⟨by decide, by decide⟩,
    (C3_xy_reshape
      [(⟨["S1"], ["G1", "G1"], [[some 1, some 2]]⟩ : PTable),
       ⟨["S1"], ["G1"], [[some 3]]⟩]).2.2.2.2.2.2.2
      ⟨["S1"], ["G1"], [[some 3]]⟩ (by decide) "S1_G1" (by decide)⟩

/-! ## C1: the Individual-replicates table -/

theorem annValidAux_mem :
    ∀ (rows : List JRow) (cnt : String × String → Nat) (c : Ann),
      c ∈ annValidAux cnt rows →
      ∃ r ∈ rows, r.sample = some c.s ∧ r.group = some c.g ∧ r.value = c.v := by
  intro rows
  induction rows with
  | nil => intro cnt c h; cases h
  | cons r rs ih =>
    intro cnt c h
    unfold annValidAux at h
    match hs : r.sample, hg : r.group with
    | some s, some g =>
      rw [hs, hg] at h
      rcases List.mem_cons.mp h with rfl | hmem
      · exact ⟨r, List.mem_cons_self r rs, hs, hg, rfl⟩
      · rcases ih _ c hmem with ⟨r', hr', hprops⟩
        exact ⟨r', List.mem_cons_of_mem r hr', hprops⟩
    | none, _ =>
      rw [hs] at h
      rcases ih _ c h with ⟨r', hr', hprops⟩
      exact ⟨r', List.mem_cons_of_mem r hr', hprops⟩
    | some _, none =>
      rw [hs, hg] at h
      rcases ih _ c h with ⟨r', hr', hprops⟩
      exact ⟨r', List.mem_cons_of_mem r hr', hprops⟩

theorem annValidAux_rep_ge :
    ∀ (rows : List JRow) (cnt : String × String → Nat) (c : Ann),
      c ∈ annValidAux cnt rows → cnt (c.s, c.g) ≤ c.rep := by
  intro rows
  induction rows with
  | nil => intro cnt c h; cases h
  | cons r rs ih =>
    intro cnt c h
    unfold annValidAux at h
    match hs : r.sample, hg : r.group with
    | some s, some g =>
      rw [hs, hg] at h
      rcases List.mem_cons.mp h with rfl | hmem
      · exact Nat.le_refl _
      · have := ih _ c hmem
        by_cases hpair : (c.s, c.g) = (s, g)
        · rw [hpair] at this ⊢
          simp at this
          omega
        · simpa [hpair] using this
    | none, _ =>
      rw [hs] at h
      exact ih _ c h
    | some _, none =>
      rw [hs, hg] at h
      exact ih _ c h

theorem annValidAux_triples_nodup :
    ∀ (rows : List JRow) (cnt : String × String → Nat),
      ((annValidAux cnt rows).map fun c => (c.s, c.g, c.rep)).Nodup := by
  intro rows
  induction rows with
  | nil => intro cnt; exact List.nodup_nil
  | cons r rs ih =>
    intro cnt
    unfold annValidAux
    match hs : r.sample, hg : r.group with
    | some s, some g =>
      rw [List.map_cons, List.nodup_cons]
      refine ⟨?_, ih _⟩
      intro hmem
      rcases List.mem_map.mp hmem with ⟨c, hc, htr⟩
      have hrep := annValidAux_rep_ge rs _ c hc
      have hse : c.s = s := congrArg Prod.fst htr
      have hge : c.g = g := congrArg Prod.fst (congrArg Prod.snd htr)
      have hre : c.rep = cnt (s, g) :=
        congrArg Prod.snd (congrArg Prod.snd htr)
      rw [hse, hge, if_pos rfl] at hrep
      omega
    | none, _ => exact ih _
    | some _, none => exact ih _

theorem indCells_triples_nodup (rows : List JRow) :
    ((indCells rows).map fun c => (c.s, c.g, c.rep)).Nodup :=
  ((List.filter_sublist (annValid rows)).map _).nodup
    (annValidAux_triples_nodup rows _)

theorem find?_triple_eq {l : List Ann}
    (hnd : (l.map fun c => (c.s, c.g, c.rep)).Nodup) {c : Ann} (hc : c ∈ l) :
    l.find? (fun c' => c'.s == c.s && c'.g == c.g && c'.rep == c.rep) = some c := by
  induction l with
  | nil => cases hc
  | cons h t ih =>
    rw [List.map_cons, List.nodup_cons] at hnd
    by_cases hpred :
        (fun c' : Ann => c'.s == c.s && c'.g == c.g && c'.rep == c.rep) h = true
    · have htr : (h.s = c.s ∧ h.g = c.g) ∧ h.rep = c.rep := by
        simpa [Bool.and_eq_true, beq_iff_eq] using hpred
      have hhc : h = c := by
        rcases List.mem_cons.mp hc with rfl | hmem
        · rfl
        · exfalso
          apply hnd.1
          apply List.mem_map.mpr
          exact ⟨c, hmem, by rw [htr.1.1, htr.1.2, htr.2]⟩
      rw [List.find?_cons_of_pos t hpred, hhc]
    · have hmem : c ∈ t := by
        rcases List.mem_cons.mp hc with rfl | hmem
        · exact absurd (by simp) hpred
        · exact hmem
      rw [List.find?_cons_of_neg t hpred]
      exact ih hnd.2 hmem

/-- The table cell of a populated (sample, group, replicate) triple holds
that cell's reading. -/
theorem indCell_of_mem {rows : List JRow} {c : Ann} (hc : c ∈ indCells rows) :
    indCell rows c.s c.g c.rep = c.v := by
  unfold indCell
  rw [find?_triple_eq (indCells_triples_nodup rows) hc]
  rfl

theorem le_foldr_max {x : Nat} : ∀ {l : List Nat}, x ∈ l → x ≤ l.foldr max 0 := by
  intro l
  induction l with
  | nil => intro h; cases h
  | cons y ys ih =>
    intro h
    rcases List.mem_cons.mp h with rfl | hmem
    · simp
    · have := ih hmem
      simp only [List.foldr_cons]
      omega

theorem rep_lt_maxRep {rows : List JRow} {c : Ann} (hc : c ∈ annValid rows) :
    c.rep < maxRep rows := by
  unfold maxRep
  have : c.rep ∈ (annValid rows).map fun c => c.rep := List.mem_map_of_mem _ hc
  have := le_foldr_max this
  omega

theorem mem_observedStr_of_cell {rows : List JRow} {c : Ann}
    (hc : c ∈ annValid rows) : c.g ∈ observedStr rows := by
  rcases annValidAux_mem rows _ c hc with ⟨r, hr, _, hg, _⟩
  unfold observedStr
  rw [List.mem_dedup]
  apply List.mem_map.mpr
  exact ⟨r, hr, by rw [hg]; rfl⟩

theorem resolveOrder_nodup (observed : List String) {d : Option (List String)}
    (hd : (d.getD []).Nodup) : (resolveOrder observed d).Nodup := by
  unfold resolveOrder
  match d with
  | none => exact sortLex_nodup (List.nodup_dedup observed)
  | some dl =>
    by_cases hde : dl.isEmpty
    · simp only [hde, if_true]
      exact sortLex_nodup (List.nodup_dedup observed)
    · simp only [hde, Bool.false_eq_true, if_false]
      rw [List.nodup_append]
      have hdl : dl.Nodup := by simpa using hd
      refine ⟨hdl.filter _,
        sortLex_nodup ((List.nodup_dedup observed).filter _), ?_⟩
      intro x hx1 hx2
      rw [mem_sortLex] at hx2
      have := (List.mem_filter.mp hx2).2
      rw [decide_eq_true_eq] at this
      exact this hx1

theorem nodup_flatMap_blocks {l : List String} (hnd : l.Nodup)
    (F : String → List (String × Nat))
    (hfst : ∀ g k, k ∈ F g → k.1 = g) (hblock : ∀ g, (F g).Nodup) :
    (l.flatMap F).Nodup := by
  induction l with
  | nil => exact List.nodup_nil
  | cons x xs ih =>
    rw [List.flatMap_cons, List.nodup_append]
    rw [List.nodup_cons] at hnd
    refine ⟨hblock x, ih hnd.2, ?_⟩
    intro k hk1 hk2
    rcases List.mem_flatMap.mp hk2 with ⟨g, hg, hkg⟩
    have h1 := hfst x k hk1
    have h2 := hfst g k hkg
    exact hnd.1 (h1 ▸ h2 ▸ hg)

theorem mem_indColKeys {rows : List JRow} {gOrd : Option (List String)}
    {g : String} {rep : Nat} :
    (g, rep) ∈ indColKeys rows gOrd ↔ occursPair rows g rep = true := by
  unfold indColKeys
  constructor
  · intro h
    rcases List.mem_flatMap.mp h with ⟨g', _, hmem⟩
    rcases List.mem_filterMap.mp hmem with ⟨rep', _, heq⟩
    by_cases hocc : occursPair rows g' rep'
    · rw [if_pos hocc] at heq
      have hpair := Option.some.inj heq
      have hg : g' = g := congrArg Prod.fst hpair
      have hr : rep' = rep := congrArg Prod.snd hpair
      rw [← hg, ← hr]
      exact hocc
    · rw [if_neg hocc] at heq
      cases heq
  · intro hocc
    have hocc' : (indCells rows).any (fun c => c.g == g && c.rep == rep) = true :=
      hocc
    rcases List.any_eq_true.mp hocc' with ⟨c, hc, hcp⟩
    have hcg : c.g = g ∧ c.rep = rep := by
      simpa [Bool.and_eq_true, beq_iff_eq] using hcp
    have hcann : c ∈ annValid rows := List.mem_of_mem_filter hc
    apply List.mem_flatMap.mpr
    refine ⟨g, ?_, ?_⟩
    · rw [← hcg.1]
      exact mem_resolveOrder.mpr (mem_observedStr_of_cell hcann)
    · apply List.mem_filterMap.mpr
      refine ⟨rep, ?_, ?_⟩
      · rw [List.mem_range, ← hcg.2]
        exact rep_lt_maxRep hcann
      · rw [if_pos hocc]

theorem indColKeys_nodup (rows : List JRow) {gOrd : Option (List String)}
    (hd : (gOrd.getD []).Nodup) : (indColKeys rows gOrd).Nodup := by
  unfold indColKeys
  apply nodup_flatMap_blocks (resolveOrder_nodup _ hd)
  · intro g k hk
    rcases List.mem_filterMap.mp hk with ⟨rep, _, heq⟩
    by_cases hocc : occursPair rows g rep
    · rw [if_pos hocc] at heq
      have hpair := Option.some.inj heq
      rw [← hpair]
    · rw [if_neg hocc] at heq
      cases heq
  · intro g
    apply List.Nodup.filterMap ?_ (List.nodup_range _)
    intro a a' b hb hb'
    by_cases ha : occursPair rows g a
    · rw [if_pos ha] at hb
      by_cases ha' : occursPair rows g a'
      · rw [if_pos ha'] at hb'
        have h1 : (g, a) = b := by simpa using hb
        have h2 : (g, a') = b := by simpa using hb'
        exact congrArg Prod.snd (h1.trans h2.symm)
      · rw [if_neg ha'] at hb'
        simp at hb'
    · rw [if_neg ha] at hb
      simp at hb

/-- C1. In Individual mode: replicate numbering equals the
count-of-prior-rows-with-the-same-pair description; the result has one row
per distinct valid sample; one column key per occurring (group, replicate)
pair, with no duplicates (for a duplicate-free declared order); every
populated triple's table cell holds that cell's reading (triples are unique,
so the first occurrence is the occurrence); and on the spec's scenario the
row S1 column G1 cell is 10 and the row S2 column G1 cell is 20. -/
theorem C1_individual_mode :
    (∀ (smap gmap : List (String × String)) (a : Axis) (opts : List String)
        (mrows : List MRow) (gOrd : Option (List String)) (t : PTable),
      (gOrd.getD []).Nodup →
      (∀ r ∈ keptRows smap gmap a opts mrows, r.value.isSome = true) →
      indResult (keptRows smap gmap a opts mrows) gOrd none = some t →
      (annValid (keptRows smap gmap a opts mrows)
          = specAnn (keptRows smap gmap a opts mrows))
      ∧ (t.rows.Nodup ∧ ∀ s, s ∈ t.rows ↔
          ∃ c ∈ annValid (keptRows smap gmap a opts mrows), c.s = s)
      ∧ (∀ g rep,
          (g, rep) ∈ indColKeys (keptRows smap gmap a opts mrows) gOrd
            ↔ occursPair (keptRows smap gmap a opts mrows) g rep = true)
      ∧ (indColKeys (keptRows smap gmap a opts mrows) gOrd).Nodup
      ∧ (t.data = t.rows.map fun s =>
          (indColKeys (keptRows smap gmap a opts mrows) gOrd).map fun kk =>
            indCell (keptRows smap gmap a opts mrows) s kk.1 kk.2)
      ∧ (∀ c ∈ indCells (keptRows smap gmap a opts mrows),
          indCell (keptRows smap gmap a opts mrows) c.s c.g c.rep = c.v))
    ∧ indResult exKept none none
        = some ⟨["S1", "S2"], ["G1"], [[some 10], [some 20]]⟩ := by
  constructor
  · intro smap gmap a opts mrows gOrd t hd hv ht
    have hcells : indCells (keptRows smap gmap a opts mrows)
        = annValid (keptRows smap gmap a opts mrows) := by
      apply List.filter_eq_self.mpr
      intro c hc
      rcases annValidAux_mem _ _ c hc with ⟨r, hr, _, _, hval⟩
      rw [← hval]
      exact hv r hr
    have hres := ht
    unfold indResult at hres
    by_cases hemp : (annValid (keptRows smap gmap a opts mrows)).isEmpty
    · simp [hemp] at hres
    · simp only [hemp, Bool.false_eq_true, if_false, Option.some.injEq] at hres
      have hrows : t.rows = indRows (keptRows smap gmap a opts mrows) := by
        rw [← hres]
        rfl
      refine ⟨annValid_eq_specAnn _, ⟨?_, ?_⟩, fun g rep => mem_indColKeys,
        indColKeys_nodup _ hd, ?_, ?_⟩
      · rw [hrows]
        exact sortLex_nodup (List.nodup_dedup _)
      · intro s
        rw [hrows]
        unfold indRows
        rw [mem_sortLex, List.mem_dedup, hcells]
        constructor
        · intro h
          rcases List.mem_map.mp h with ⟨c, hc, hcs⟩
          exact ⟨c, hc, hcs⟩
        · rintro ⟨c, hc, hcs⟩
          exact List.mem_map.mpr ⟨c, hc, hcs⟩
      · rw [hrows, ← hres]
        rfl
      · intro c hc
        exact indCell_of_mem hc
  · have hstep : indResult exKept none none
        = some ⟨["S1", "S2"], ["G1"],
            [[some (round2 10)], [some (round2 20)]]⟩ := rfl
    rw [hstep]
    have h10 : round2 (10 : ℚ) = 10 := by norm_num [round2, round_eq]
    have h20 : round2 (20 : ℚ) = 20 := by norm_num [round2, round_eq]
    rw [h10, h20]

/-- Witness for C1 at the spec's scenario data. -/
theorem C1_witness :
    ((Option.getD (none : Option (List String)) []).Nodup
      ∧ ∀ r ∈ exKept, r.value.isSome = true)
    ∧ (∀ g rep, (g, rep) ∈ indColKeys exKept none
        ↔ occursPair exKept g rep = true)
    ∧ (∀ c ∈ indCells exKept, indCell exKept c.s c.g c.rep = c.v) :=
  have h := C1_individual_mode.1 exSMap exGMap Axis.sample ["All"] exMRows none
    ⟨["S1", "S2"], ["G1"], [[some 10], [some 20]]⟩ (by decide) (by decide)
    C1_individual_mode.2
  ⟨⟨by decide, by decide⟩, h.2.2.1, h.2.2.2.2.2⟩

/-! ## C9: rows with an unmatched specimen name -/

/-- Dropping measurement rows before the join commutes with the join and the
user filter: the kept rows of the matched-only input are the kept rows of the
full input restricted to rows with a well. -/
theorem keptRows_filter_matched (smap gmap : List (String × String)) (a : Axis)
    (opts : List String) (mrows : List MRow) :
    keptRows smap gmap a opts (mrows.filter fun m => (extractWell m.name).isSome)
      = (keptRows smap gmap a opts mrows).filter fun r => r.well.isSome := by
  unfold keptRows joinAll
  have hjoin : (mrows.filter fun m => (extractWell m.name).isSome).map
        (joinRow smap gmap)
      = ((mrows.map (joinRow smap gmap)).filter fun r => r.well.isSome) := by
    rw [List.filter_map]
    congr 1
  rw [hjoin]
  unfold applyFilter
  by_cases hall : "All" ∈ opts
  · simp [hall]
  · simp only [hall, if_neg, if_false]
    exact List.filter_comm _ _ _

theorem mem_keptRows_join {smap gmap : List (String × String)} {a : Axis}
    {opts : List String} {mrows : List MRow} {r : JRow}
    (hr : r ∈ keptRows smap gmap a opts mrows) :
    ∃ m, r = joinRow smap gmap m := by
  rcases List.mem_map.mp (mem_applyFilter_subset hr) with ⟨m, _, hm⟩
  exact ⟨m, hm.symm⟩

theorem keptRows_group_well {smap gmap : List (String × String)} {a : Axis}
    {opts : List String} {mrows : List MRow} {r : JRow}
    (hr : r ∈ keptRows smap gmap a opts mrows) {g : String}
    (hg : r.group = some g) : r.well.isSome = true := by
  rcases mem_keptRows_join hr with ⟨m, rfl⟩
  unfold joinRow at hg ⊢
  simp only at hg ⊢
  cases h : extractWell m.name with
  | none => rw [h] at hg; cases hg
  | some w => rfl

theorem keptRows_no_well_no_keys {smap gmap : List (String × String)} {a : Axis}
    {opts : List String} {mrows : List MRow} {r : JRow}
    (hr : r ∈ keptRows smap gmap a opts mrows)
    (hw : ¬ r.well.isSome = true) : r.sample = none ∧ r.group = none := by
  rcases mem_keptRows_join hr with ⟨m, rfl⟩
  unfold joinRow at hw ⊢
  simp only at hw ⊢
  cases h : extractWell m.name with
  | none => exact ⟨rfl, rfl⟩
  | some w => rw [h] at hw; exact absurd rfl hw

theorem annValidAux_cons_valid (cnt : String × String → Nat) (r : JRow)
    (rs : List JRow) {s g : String} (hs : r.sample = some s)
    (hg : r.group = some g) :
    annValidAux cnt (r :: rs)
      = ⟨s, g, cnt (s, g), r.value⟩ ::
          annValidAux (fun p => if p = (s, g) then cnt p + 1 else cnt p) rs := by
  cases r with
  | mk w sa gr va =>
    simp only at hs hg
    subst hs
    subst hg
    rfl

theorem annValidAux_cons_skip (cnt : String × String → Nat) (r : JRow)
    (rs : List JRow) (h : r.sample = none ∨ r.group = none) :
    annValidAux cnt (r :: rs) = annValidAux cnt rs := by
  cases r with
  | mk w sa gr va =>
    simp only at h
    rcases h with h | h
    · subst h
      cases gr <;> rfl
    · subst h
      cases sa <;> rfl

theorem annValidAux_filter (p : JRow → Bool) :
    ∀ (l : List JRow), (∀ r ∈ l, p r = false → r.sample = none ∨ r.group = none) →
      ∀ (cnt : String × String → Nat),
        annValidAux cnt (l.filter p) = annValidAux cnt l := by
  intro l
  induction l with
  | nil => intro _ cnt; rfl
  | cons r rs ih =>
    intro hp cnt
    rw [List.filter_cons]
    by_cases hpr : p r
    · rw [if_pos hpr]
      match hs : r.sample, hg : r.group with
      | some s, some g =>
        rw [annValidAux_cons_valid cnt r (rs.filter p) hs hg,
          annValidAux_cons_valid cnt r rs hs hg,
          ih (fun x hx => hp x (List.mem_cons_of_mem r hx)) _]
      | none, _ =>
        rw [annValidAux_cons_skip cnt r (rs.filter p) (Or.inl hs),
          annValidAux_cons_skip cnt r rs (Or.inl hs),
          ih (fun x hx => hp x (List.mem_cons_of_mem r hx)) _]
      | some _, none =>
        rw [annValidAux_cons_skip cnt r (rs.filter p) (Or.inr hg),
          annValidAux_cons_skip cnt r rs (Or.inr hg),
          ih (fun x hx => hp x (List.mem_cons_of_mem r hx)) _]
    · rw [if_neg hpr]
      have hkeys := hp r (List.mem_cons_self r rs) (by simpa using hpr)
      rw [annValidAux_cons_skip cnt r rs hkeys]
      exact ih (fun x hx => hp x (List.mem_cons_of_mem r hx)) cnt

/-- Removing the rows without a well does not change the replicate-annotated
valid rows. -/
theorem annValid_filter_well (smap gmap : List (String × String)) (a : Axis)
    (opts : List String) (mrows : List MRow) :
    annValid ((keptRows smap gmap a opts mrows).filter fun r => r.well.isSome)
      = annValid (keptRows smap gmap a opts mrows) := by
  unfold annValid
  apply annValidAux_filter
  intro r hr hw
  rcases keptRows_no_well_no_keys hr (by simpa using hw) with ⟨h1, _⟩
  exact Or.inl h1

theorem sortLex_filter_eq {A B : List String} (hA : A.Nodup) (hB : B.Nodup)
    (Q : String → Bool) (h : ∀ g, Q g = true → (g ∈ A ↔ g ∈ B)) :
    (sortLex A).filter Q = (sortLex B).filter Q := by
  have h1 : ((sortLex A).filter Q).Perm (A.filter Q) := (sortLex_perm A).filter Q
  have h2 : ((sortLex B).filter Q).Perm (B.filter Q) := (sortLex_perm B).filter Q
  have hmid : (A.filter Q).Perm (B.filter Q) := by
    apply List.perm_of_nodup_nodup_toFinset_eq (hA.filter Q) (hB.filter Q)
    apply Finset.ext
    intro x
    rw [List.mem_toFinset, List.mem_toFinset, List.mem_filter, List.mem_filter]
    constructor
    · rintro ⟨hxA, hQ⟩
      exact ⟨(h x hQ).mp hxA, hQ⟩
    · rintro ⟨hxB, hQ⟩
      exact ⟨(h x hQ).mpr hxB, hQ⟩
  exact List.eq_of_perm_of_sorted (h1.trans (hmid.trans h2.symm))
    ((sortLex_sorted A).filter Q) ((sortLex_sorted B).filter Q)

theorem resolveOrder_filter_congr (O₁ O₂ : List String)
    (d : Option (List String)) (Q : String → Bool)
    (h : ∀ g, Q g = true → (g ∈ O₁ ∧ g ∈ O₂)) :
    (resolveOrder O₁ d).filter Q = (resolveOrder O₂ d).filter Q := by
  have hded : ∀ g, Q g = true → (g ∈ O₁.dedup ↔ g ∈ O₂.dedup) := by
    intro g hQ
    rw [List.mem_dedup, List.mem_dedup]
    exact ⟨fun _ => (h g hQ).2, fun _ => (h g hQ).1⟩
  unfold resolveOrder
  match d with
  | none =>
    exact sortLex_filter_eq (List.nodup_dedup O₁) (List.nodup_dedup O₂) Q hded
  | some dl =>
    by_cases hde : dl.isEmpty
    · simp only [hde, if_true]
      exact sortLex_filter_eq (List.nodup_dedup O₁) (List.nodup_dedup O₂) Q hded
    · simp only [hde, Bool.false_eq_true, if_false, List.filter_append]
      congr 1
      · rw [List.filter_filter, List.filter_filter]
        apply List.filter_congr
        intro x _
        by_cases hQ : Q x = true
        · have hiff := hded x hQ
          by_cases h1 : x ∈ O₁.dedup
          · simp [hQ, h1, hiff.mp h1]
          · have h2 : x ∉ O₂.dedup := fun hc => h1 (hiff.mpr hc)
            simp [hQ, h1, h2]
        · have hQf : Q x = false := by simpa using hQ
          simp [hQf]
      · apply sortLex_filter_eq ((List.nodup_dedup O₁).filter _)
          ((List.nodup_dedup O₂).filter _)
        intro g hQ
        have hmemd := hded g hQ
        have hord : (g ∈ dl.filter fun y => decide (y ∈ O₁.dedup))
            ↔ (g ∈ dl.filter fun y => decide (y ∈ O₂.dedup)) := by
          rw [List.mem_filter, List.mem_filter]
          constructor
          · rintro ⟨hgd, hgo⟩
            exact ⟨hgd, decide_eq_true (hmemd.mp (of_decide_eq_true hgo))⟩
          · rintro ⟨hgd, hgo⟩
            exact ⟨hgd, decide_eq_true (hmemd.mpr (of_decide_eq_true hgo))⟩
        constructor
        · intro hg1
          have h1 := (List.mem_filter.mp hg1).1
          have h2 := (List.mem_filter.mp hg1).2
          apply List.mem_filter.mpr
          refine ⟨hmemd.mp h1, decide_eq_true ?_⟩
          intro hc
          exact (of_decide_eq_true h2) (hord.mpr hc)
        · intro hg1
          have h1 := (List.mem_filter.mp hg1).1
          have h2 := (List.mem_filter.mp hg1).2
          apply List.mem_filter.mpr
          refine ⟨hmemd.mpr h1, decide_eq_true ?_⟩
          intro hc
          exact (of_decide_eq_true h2) (hord.mp hc)

theorem flatMap_filter_nonempty {α : Type _} (l : List String)
    (F : String → List α) :
    l.flatMap F = (l.filter fun g => !(F g).isEmpty).flatMap F := by
  induction l with
  | nil => rfl
  | cons x xs ih =>
    rw [List.flatMap_cons, List.filter_cons]
    by_cases hx : (F x).isEmpty
    · have hnil : F x = [] := List.isEmpty_iff.mp hx
      simp only [hx, Bool.not_true, Bool.false_eq_true, if_false, hnil,
        List.nil_append]
      exact ih
    · simp only [Bool.not_eq_true', Bool.not_eq_false] at hx
      simp only [hx, Bool.not_false, if_pos, List.flatMap_cons]
      rw [ih]

/-- The measurement rows whose specimen name matches the well pattern. -/
def matchedRows (mrows : List MRow) : List MRow :=
  mrows.filter fun m => (extractWell m.name).isSome

theorem annValid_matched_eq (smap gmap : List (String × String)) (a : Axis)
    (opts : List String) (mrows : List MRow) :
    annValid (keptRows smap gmap a opts (matchedRows mrows))
      = annValid (keptRows smap gmap a opts mrows) := by
  unfold matchedRows
  rw [keptRows_filter_matched]
  exact annValid_filter_well smap gmap a opts mrows

theorem indCells_congr {r1 r2 : List JRow} (h : annValid r1 = annValid r2) :
    indCells r1 = indCells r2 := by
  unfold indCells
  rw [h]

theorem maxRep_congr {r1 r2 : List JRow} (h : annValid r1 = annValid r2) :
    maxRep r1 = maxRep r2 := by
  unfold maxRep
  rw [h]

theorem indRows_congr {r1 r2 : List JRow} (h : annValid r1 = annValid r2) :
    indRows r1 = indRows r2 := by
  unfold indRows
  rw [indCells_congr h]

theorem occursPair_congr {r1 r2 : List JRow} (h : annValid r1 = annValid r2) :
    occursPair r1 = occursPair r2 := by
  funext g rep
  unfold occursPair
  rw [indCells_congr h]

theorem indCell_congr {r1 r2 : List JRow} (h : annValid r1 = annValid r2) :
    indCell r1 = indCell r2 := by
  funext s g rep
  unfold indCell
  rw [indCells_congr h]

theorem msRowsIdx_congr {r1 r2 : List JRow} (h : annValid r1 = annValid r2) :
    msRowsIdx r1 = msRowsIdx r2 := by
  unfold msRowsIdx msValidPairs
  rw [h]

theorem observedStr_subset_matched (smap gmap : List (String × String))
    (a : Axis) (opts : List String) (mrows : List MRow) :
    ∀ x, x ∈ observedStr (keptRows smap gmap a opts (matchedRows mrows)) →
      x ∈ observedStr (keptRows smap gmap a opts mrows) := by
  intro x hx
  unfold matchedRows at hx
  rw [keptRows_filter_matched] at hx
  unfold observedStr at hx ⊢
  rw [List.mem_dedup] at hx ⊢
  rcases List.mem_map.mp hx with ⟨r, hr, hrx⟩
  exact List.mem_map.mpr ⟨r, List.mem_of_mem_filter hr, hrx⟩

theorem observed_extra_no_group {smap gmap : List (String × String)} {a : Axis}
    {opts : List String} {mrows : List MRow} {x : String}
    (hO2 : x ∉ observedStr (keptRows smap gmap a opts (matchedRows mrows))) :
    ∀ r ∈ keptRows smap gmap a opts mrows, r.group ≠ some x := by
  intro r hr hg
  apply hO2
  have hws : r.well.isSome = true := keptRows_group_well hr hg
  unfold matchedRows
  rw [keptRows_filter_matched]
  unfold observedStr
  rw [List.mem_dedup]
  apply List.mem_map.mpr
  refine ⟨r, List.mem_filter.mpr ⟨hr, hws⟩, ?_⟩
  rw [hg]
  rfl

theorem indColKeys_matched_eq (smap gmap : List (String × String)) (a : Axis)
    (opts : List String) (mrows : List MRow) (gOrd : Option (List String)) :
    indColKeys (keptRows smap gmap a opts (matchedRows mrows)) gOrd
      = indColKeys (keptRows smap gmap a opts mrows) gOrd := by
  have hann := annValid_matched_eq smap gmap a opts mrows
  unfold indColKeys
  rw [occursPair_congr hann, maxRep_congr hann]
  rw [flatMap_filter_nonempty
    (resolveOrder (observedStr (keptRows smap gmap a opts (matchedRows mrows))) gOrd) _]
  rw [flatMap_filter_nonempty
    (resolveOrder (observedStr (keptRows smap gmap a opts mrows)) gOrd) _]
  congr 1
  apply resolveOrder_filter_congr
  intro g hQ
  have hne : ((List.range (maxRep (keptRows smap gmap a opts mrows))).filterMap
      fun rep => if occursPair (keptRows smap gmap a opts mrows) g rep = true
        then some (g, rep) else none) ≠ [] := by
    intro hc
    rw [hc] at hQ
    simp at hQ
  rcases List.exists_mem_of_ne_nil _ hne with ⟨k, hk⟩
  rcases List.mem_filterMap.mp hk with ⟨rep, _, heq⟩
  by_cases hocc : occursPair (keptRows smap gmap a opts mrows) g rep
  · have hocc2 : occursPair (keptRows smap gmap a opts (matchedRows mrows)) g rep
        = true := by
      rw [occursPair_congr hann]
      exact hocc
    have hocc2' : (indCells (keptRows smap gmap a opts (matchedRows mrows))).any
        (fun c => c.g == g && c.rep == rep) = true := hocc2
    rcases List.any_eq_true.mp hocc2' with ⟨c, hc, hcp⟩
    have hcg : c.g = g := by
      have hsplit := (Bool.and_eq_true _ _).mp hcp
      exact eq_of_beq hsplit.1
    have hcann : c ∈ annValid (keptRows smap gmap a opts (matchedRows mrows)) :=
      List.mem_of_mem_filter hc
    have hgO2 := mem_observedStr_of_cell hcann
    rw [hcg] at hgO2
    exact ⟨hgO2, observedStr_subset_matched smap gmap a opts mrows g hgO2⟩
  · rw [if_neg hocc] at heq
    cases heq

theorem indResult_matched_eq (smap gmap : List (String × String)) (a : Axis)
    (opts : List String) (mrows : List MRow) (gOrd sOrd : Option (List String)) :
    indResult (keptRows smap gmap a opts (matchedRows mrows)) gOrd sOrd
      = indResult (keptRows smap gmap a opts mrows) gOrd sOrd := by
  have hann := annValid_matched_eq smap gmap a opts mrows
  unfold indResult
  rw [hann, indColKeys_matched_eq smap gmap a opts mrows gOrd,
    indRows_congr hann, indCell_congr hann]

theorem pairVals_matched_eq (smap gmap : List (String × String)) (a : Axis)
    (opts : List String) (mrows : List MRow) (s g : String) :
    pairVals (keptRows smap gmap a opts (matchedRows mrows)) s g
      = pairVals (keptRows smap gmap a opts mrows) s g := by
  unfold matchedRows
  rw [keptRows_filter_matched]
  unfold pairVals
  rw [List.filter_filter]
  congr 1
  apply List.filter_congr
  intro r hr
  by_cases hp : (decide (r.sample = some s) && decide (r.group = some g)) = true
  · have hgr : r.group = some g := by
      have := (Bool.and_eq_true _ _).mp hp
      exact of_decide_eq_true this.2
    have hws := keptRows_group_well hr hgr
    rw [hp, hws]
    rfl
  · have hpf : (decide (r.sample = some s) && decide (r.group = some g)) = false :=
      by simpa using hp
    rw [hpf]
    rfl

theorem ms_artifact_cols (smap gmap : List (String × String)) (a : Axis)
    (opts : List String) (mrows : List MRow) (gOrd : Option (List String)) :
    ∀ g', g' ∉ observedStr (keptRows smap gmap a opts (matchedRows mrows)) →
      ∀ s, emittedMean (keptRows smap gmap a opts mrows) s g' = none
        ∧ emittedDisp Disp.sd (keptRows smap gmap a opts mrows) s g' = none
        ∧ emittedDisp Disp.sem (keptRows smap gmap a opts mrows) s g' = none := by
  intro g' hO2 s
  have hnog := observed_extra_no_group hO2
  have hpv : pairVals (keptRows smap gmap a opts mrows) s g' = [] := by
    unfold pairVals
    rw [List.filter_eq_nil_iff.mpr ?_]
    · rfl
    · intro r hr
      intro hc
      have hgr : r.group = some g' := by
        have := (Bool.and_eq_true _ _).mp hc
        exact of_decide_eq_true this.2
      exact hnog r hr hgr
  have hobs : obsVals (keptRows smap gmap a opts mrows) s g' = [] := by
    unfold obsVals
    rw [hpv]
    rfl
  refine ⟨?_, ?_, ?_⟩ <;> simp [emittedMean, emittedDisp, hobs]

def c9SMap : List (String × String) := [("A01", "S1")]

def c9GMap : List (String × String) := [("A01", "G1")]

def c9MRows : List MRow := [⟨"x_A01.fcs", some 10⟩, ⟨"bad", some 5⟩]

/-- C9 counterexample: a measurement row whose name does not match the well
pattern gets a null WellId, yet in MeanSD mode under an "All" filter it does
change the aggregation result — `astype(str)` turns its missing group label
into the string "nan", adding the all-missing columns `nan_Mean`, `nan_SD` —
so the row does contribute to a join/aggregation result in that mode. -/
theorem C9_counterexample :
    extractWell "bad" = none
    ∧ msColLabels Disp.sd
        (msGroupOrd (keptRows c9SMap c9GMap Axis.sample ["All"] c9MRows) none)
      = ["G1_Mean", "G1_SD", "nan_Mean", "nan_SD"]
    ∧ msColLabels Disp.sd
        (msGroupOrd (keptRows c9SMap c9GMap Axis.sample ["All"]
          (matchedRows c9MRows)) none)
      = ["G1_Mean", "G1_SD"] := by
  refine ⟨by decide, by decide, by decide⟩

/-- C9 amended: a row whose specimen name does not match the well pattern
gets a null WellId and null sample/group labels; in Individual mode the
result is completely unchanged by dropping such rows; in Mean/SD-SEM mode
every (sample, group) pair's readings — hence every Mean/SD/SEM cell — and
the final row order are unchanged, and the only possible difference is extra
group columns absent from the matched-only data, all of whose cells are
missing. -/
theorem C9_amended (smap gmap : List (String × String)) (a : Axis)
    (opts : List String) (gOrd sOrd : Option (List String)) (mrows : List MRow) :
    (∀ m : MRow, extractWell m.name = none →
      (joinRow smap gmap m).well = none ∧ (joinRow smap gmap m).sample = none
        ∧ (joinRow smap gmap m).group = none)
    ∧ indResult (keptRows smap gmap a opts (matchedRows mrows)) gOrd sOrd
        = indResult (keptRows smap gmap a opts mrows) gOrd sOrd
    ∧ (∀ s g, pairVals (keptRows smap gmap a opts (matchedRows mrows)) s g
        = pairVals (keptRows smap gmap a opts mrows) s g)
    ∧ msFinalRows (keptRows smap gmap a opts (matchedRows mrows)) sOrd
        = msFinalRows (keptRows smap gmap a opts mrows) sOrd
    ∧ (∀ g', g' ∈ msGroupOrd (keptRows smap gmap a opts mrows) gOrd →
        g' ∉ msGroupOrd (keptRows smap gmap a opts (matchedRows mrows)) gOrd →
        ∀ s, emittedMean (keptRows smap gmap a opts mrows) s g' = none
          ∧ emittedDisp Disp.sd (keptRows smap gmap a opts mrows) s g' = none
          ∧ emittedDisp Disp.sem (keptRows smap gmap a opts mrows) s g' = none) := by
  refine ⟨?_, indResult_matched_eq smap gmap a opts mrows gOrd sOrd,
    pairVals_matched_eq smap gmap a opts mrows, ?_, ?_⟩
  · intro m hm
    unfold joinRow
    simp [hm]
  · unfold msFinalRows
    rw [msRowsIdx_congr (annValid_matched_eq smap gmap a opts mrows)]
  · intro g' _ h2 s
    have hO2 : g' ∉ observedStr (keptRows smap gmap a opts (matchedRows mrows)) :=
      fun hc => h2 (mem_resolveOrder.mpr hc)
    exact ms_artifact_cols smap gmap a opts mrows gOrd g' hO2 s

/-- Witness for C9 amended at the counterexample data: the columns of the
full result that the matched-only result lacks are the "nan" pair, and their
cells are all missing. -/
theorem C9_witness :
    ("nan" ∈ msGroupOrd (keptRows c9SMap c9GMap Axis.sample ["All"] c9MRows) none
      ∧ "nan" ∉ msGroupOrd (keptRows c9SMap c9GMap Axis.sample ["All"]
          (matchedRows c9MRows)) none
      ∧ extractWell "bad" = none)
    ∧ emittedMean (keptRows c9SMap c9GMap Axis.sample ["All"] c9MRows) "S1" "nan"
        = none
    ∧ emittedDisp Disp.sd (keptRows c9SMap c9GMap Axis.sample ["All"] c9MRows)
        "S1" "nan" = none
    ∧ indResult (keptRows c9SMap c9GMap Axis.sample ["All"]
          (matchedRows c9MRows)) none none
        = indResult (keptRows c9SMap c9GMap Axis.sample ["All"] c9MRows) none none :=
  have h := C9_amended c9SMap c9GMap Axis.sample ["All"] none none c9MRows
  have hart := h.2.2.2.2 "nan" (by decide) (by decide) "S1"
  ⟨⟨by decide, by decide, by decide⟩, hart.1, hart.2.1, h.2.1⟩

end FlowSpec
